import Mathlib

/-! # lockit: chunked file encryption, secure erase and directory processing

A shallow embedding of `main.go` (functions `overwriteAndRemove`, `encryptFile`,
`decryptFile`, `processDirectory`) together with theorems about it.

Modelling conventions
* A byte is a `Fin 256`; a file content is a list of bytes.
* The file system is a map from path names to contents (`none`: no such file).  Paths are
  plain names: directories, permissions and invalid names are outside the model, so the only
  I/O step that can fail is opening, stat-ing or removing a path that does not exist.
* A Go `error` result is an `Option Err` (`none` is `nil`).  Functions return the final file
  system together with the error, because the Go code leaves its side effects behind when it
  returns an error.
* `crypto/rand` is an infinite stream of bytes from which reads consume a prefix.
* The AES-GCM primitive is a parameter (`AEAD`): `Seal` and `Open` are abstract, except
  that a sealed chunk is 16 bytes longer than its plaintext; the nonce size (12) and the tag
  overhead (16) are the constants of `cipher.NewGCM`.
* The goroutines of `processDirectory` are modelled by an interleaving semantics over
  atomic actions.
-/

namespace Lockit

/-! ## Data model -/

abbrev Byte := Fin 256

abbrev Bytes := List Byte

/-- The file system: a map from path names to file contents. -/
abbrev FS := String → Option Bytes

/-- The error values returned by the functions of `main.go`, one per `fmt.Errorf` site
(`remove` is the unwrapped error of `os.Remove`). -/
inductive Err where
  | remove
  | statFile
  | openForOverwriting
  | randomData
  | overwriteFile
  | openForEncryption
  | createEncrypted
  | aesCipher
  | gcmCipher
  | generateNonce
  | writeNonce
  | readFile
  | writeEncrypted
  | notEncrypted
  | openEncrypted
  | readNonce
  | createDecrypted
  | readEncrypted
  | decryptData
  | writeDecrypted
  | removeEncrypted
  deriving DecidableEq

/-- The value of `gcm.NonceSize()` for a cipher made by `cipher.NewGCM`. -/
def gcmNonceSize : Nat := 12

/-- The value of `gcm.Overhead()` for a cipher made by `cipher.NewGCM`. -/
def gcmOverhead : Nat := 16

/-- The authenticated cipher obtained from `cipher.NewGCM(aes.NewCipher(key))`:
`Seal key nonce plaintext` is `gcm.Seal(nil, nonce, plaintext, nil)` and
`Open key nonce ciphertext` is `gcm.Open(nil, nonce, ciphertext, nil)` (`none`: error).
The output of `Seal` is the ciphertext, as long as the plaintext, with the tag of
`gcm.Overhead()` bytes appended (`seal_length`).  What `Open` returns is not constrained
here: the theorems that need a property of it state it as a hypothesis. -/
structure AEAD where
  Seal : Bytes → Bytes → Bytes → Bytes
  Open : Bytes → Bytes → Bytes → Option Bytes
  seal_length : ∀ key nonce plaintext,
    (Seal key nonce plaintext).length = plaintext.length + gcmOverhead

/-- The length of the I/O buffer of every loop of `main.go` (`make([]byte, 4096)`). -/
def bufSize : Nat := 4096

/-- The key sizes `aes.NewCipher` accepts. -/
def validKeySize (n : Nat) : Bool := n == 16 || n == 24 || n == 32

/-- A read of `n` bytes from `crypto/rand`: the bytes read and the rest of the stream. -/
def randRead (rnd : Nat → Byte) (n : Nat) : Bytes × (Nat → Byte) :=
  ((List.range n).map rnd, fun i => rnd (n + i))

/-! ## Strings and the file system -/

/-- The function `strings.HasSuffix`. -/
def HasSuffix (s suffix : String) : Bool := decide (suffix.data <:+ s.data)

/-- The function `strings.TrimSuffix`. -/
def TrimSuffix (s suffix : String) : String :=
  if HasSuffix s suffix then ⟨s.data.take (s.data.length - suffix.data.length)⟩ else s

/-- The file name suffix of encrypted files. -/
def cryptsec : String := ".cryptsec"

/-- The function `os.Create`: the path now names an empty file. -/
def createFile (fs : FS) (path : String) : FS :=
  fun q => if q = path then some [] else fs q

/-- A `Write` on a file that was created by `os.Create` and is written only sequentially:
the data goes to the end of the file. -/
def appendFile (fs : FS) (path : String) (data : Bytes) : FS :=
  fun q => if q = path then some ((fs path).getD [] ++ data) else fs q

/-- The content of a file after `data` is written at offset `off`: the bytes before `off`
are kept (a hole is zero-filled), the bytes after the written range are kept. -/
def writeAt (content : Bytes) (data : Bytes) (off : Nat) : Bytes :=
  content.take off ++ List.replicate (off - content.length) 0 ++ data
    ++ content.drop (off + data.length)

/-- A `file.WriteAt(data, off)` on the open file at `path`. -/
def writeAtFile (fs : FS) (path : String) (data : Bytes) (off : Nat) : FS :=
  fun q => if q = path then some (writeAt ((fs path).getD []) data off) else fs q

/-- The function `os.Remove`: fails when the path does not exist. -/
def removeFile (fs : FS) (path : String) : Option FS :=
  match fs path with
  | none => none
  | some _ => some (fun q => if q = path then none else fs q)

/-! ## Secure erase: `overwriteAndRemove` -/

/-- The state of the overwrite loops: the 4096-byte buffer, the file system and the
random stream. -/
structure EraseState where
  buffer : Bytes
  fs : FS
  rnd : Nat → Byte

/-- The inner loop of `overwriteAndRemove`, from offset `written` on:
`for written < size { fill the buffer unless p%3 == 2; WriteAt(buffer, written);
written += len(buffer) }`. -/
def writeLoop (filePath : String) (p : Nat) (fillByte : Byte) (size : Nat)
    (written : Nat) (buffer : Bytes) (fs : FS) : Bytes × FS :=
  if written < size then
    let buffer1 := if p % 3 ≠ 2 then buffer.map (fun _ => fillByte) else buffer
    writeLoop filePath p fillByte size (written + bufSize) buffer1
      (writeAtFile fs filePath buffer1 written)
  else (buffer, fs)
termination_by size - written
decreasing_by simp only [bufSize]; omega

/-- The body of the outer loop of `overwriteAndRemove` for pass index `p`. -/
def overwritePass (filePath : String) (size : Nat) (p : Nat) (s : EraseState) : EraseState :=
  if p % 3 = 0 then
    let r := writeLoop filePath p 0x00 size 0 s.buffer s.fs
    { buffer := r.1, fs := r.2, rnd := s.rnd }
  else if p % 3 = 1 then
    let r := writeLoop filePath p 0xFF size 0 s.buffer s.fs
    { buffer := r.1, fs := r.2, rnd := s.rnd }
  else
    let rr := randRead s.rnd bufSize
    let r := writeLoop filePath p 0x00 size 0 rr.1 s.fs
    { buffer := r.1, fs := r.2, rnd := rr.2 }

/-- The state after the first `n` iterations of the outer loop
`for p := 0; p < passes; p++` of `overwriteAndRemove`. -/
def overwritePasses (filePath : String) (size : Nat) (s : EraseState) : Nat → EraseState
  | 0 => s
  | p + 1 => overwritePass filePath size p (overwritePasses filePath size s p)

/-- The state of `overwriteAndRemove` when it enters its outer loop: the buffer is
`make([]byte, 4096)`. -/
def eraseInit (fs : FS) (rnd : Nat → Byte) : EraseState :=
  { buffer := List.replicate bufSize 0x00, fs := fs, rnd := rnd }

/-- The function `overwriteAndRemove`. -/
def overwriteAndRemove (fs : FS) (filePath : String) (passes : Int) (rnd : Nat → Byte) :
    FS × Option Err :=
  if passes ≤ 0 then
    match removeFile fs filePath with
    | none => (fs, some Err.remove)
    | some fs1 => (fs1, none)
  else
    match fs filePath with
    | none => (fs, some Err.statFile)
    | some content =>
      let size := content.length
      let s := overwritePasses filePath size (eraseInit fs rnd) passes.toNat
      match removeFile s.fs filePath with
      | none => (s.fs, some Err.remove)
      | some fs1 => (fs1, none)

/-! ## File transform: `encryptFile` and `decryptFile` -/

/-- The read loop of `encryptFile` over the unread part `rest` of the input file:
`Read` fills the 4096-byte buffer (less at the end of the file, `io.EOF` when nothing is
left), the bytes read are sealed and the sealed chunk is written to the output. -/
def encryptLoop (A : AEAD) (key nonce : Bytes) (outputPath : String) (rest : Bytes) (fs : FS) :
    FS :=
  if rest = [] then fs
  else
    encryptLoop A key nonce outputPath (rest.drop bufSize)
      (appendFile fs outputPath (A.Seal key nonce (rest.take bufSize)))
termination_by rest.length
decreasing_by
  cases rest with
  | nil => contradiction
  | cons a t => simp only [bufSize, List.length_drop, List.length_cons]; omega

/-- The function `encryptFile`. -/
def encryptFile (A : AEAD) (fs : FS) (filePath : String) (key : Bytes) (passes : Int)
    (rnd : Nat → Byte) : FS × Option Err :=
  if HasSuffix filePath cryptsec then (fs, none)
  else
    match fs filePath with
    | none => (fs, some Err.openForEncryption)
    | some content =>
      let outputPath := filePath ++ cryptsec
      let fs1 := createFile fs outputPath
      if validKeySize key.length then
        let rr := randRead rnd gcmNonceSize
        let nonce := rr.1
        let fs2 := appendFile fs1 outputPath nonce
        let fs3 := encryptLoop A key nonce outputPath content fs2
        overwriteAndRemove fs3 filePath passes rr.2
      else (fs1, some Err.aesCipher)

/-- The read loop of `decryptFile` over the unread part `rest` of the input file:
`Read` fills the buffer of `4096 + gcm.Overhead()` bytes (less at the end of the file,
`io.EOF` when nothing is left), the bytes read are opened and the plaintext is written. -/
def decryptLoop (A : AEAD) (key nonce : Bytes) (outputPath : String) (rest : Bytes) (fs : FS) :
    FS × Option Err :=
  if rest = [] then (fs, none)
  else
    match A.Open key nonce (rest.take (bufSize + gcmOverhead)) with
    | none => (fs, some Err.decryptData)
    | some plaintext =>
      decryptLoop A key nonce outputPath (rest.drop (bufSize + gcmOverhead))
        (appendFile fs outputPath plaintext)
termination_by rest.length
decreasing_by
  cases rest with
  | nil => contradiction
  | cons a t => simp only [bufSize, gcmOverhead, List.length_drop, List.length_cons]; omega

set_option linter.unusedVariables false in
/-- The function `decryptFile` (its `passes` argument is unused, as in the source). -/
def decryptFile (A : AEAD) (fs : FS) (filePath : String) (key : Bytes) (passes : Int) :
    FS × Option Err :=
  if HasSuffix filePath cryptsec then
    match fs filePath with
    | none => (fs, some Err.openEncrypted)
    | some content =>
      if validKeySize key.length then
        if content.length < gcmNonceSize then (fs, some Err.readNonce)
        else
          let nonce := content.take gcmNonceSize
          let outputPath := TrimSuffix filePath cryptsec
          let fs1 := createFile fs outputPath
          match decryptLoop A key nonce outputPath (content.drop gcmNonceSize) fs1 with
          | (fs2, some e) => (fs2, some e)
          | (fs2, none) =>
            match removeFile fs2 filePath with
            | none => (fs2, some Err.removeEncrypted)
            | some fs3 => (fs3, none)
      else (fs, some Err.aesCipher)
  else (fs, some Err.notEncrypted)

/-! ## Directory worker pool: `processDirectory`

The goroutines of `processDirectory` are modelled by an interleaving semantics: a run is a
sequence of atomic actions chosen by the scheduler, and an action that is not enabled in
the current state (a send on a full channel with no receiver, a receive on an empty
channel, ...) cannot be taken.  The directory tree is given by the list of the paths of its
regular files in the order of `filepath.Walk`; both walks of the function see this list.
A worker's receive and the transform call it makes on the received path form one action,
recorded in `calls`. -/

/-- The arguments of `processDirectory`, with the regular files of `directory`. -/
structure PoolConfig where
  files : List String
  encrypt : Bool
  decrypt : Bool
  useMultithread : Bool
  threads : Int
  deriving DecidableEq

/-- The state of a run of `processDirectory` from the second walk on. -/
structure PoolState where
  /-- The regular files the second walk has still to send on `fileChan`. -/
  pending : List String
  /-- The buffer of `fileChan`, oldest element first. -/
  chan : List String
  /-- Whether `close(fileChan)` has been executed. -/
  closed : Bool
  /-- The number of worker goroutines that have not left their `range fileChan` loop. -/
  workers : Nat
  /-- The paths on which `encryptFile` or `decryptFile` has been invoked, in order. -/
  calls : List String
  /-- Whether `processDirectory` has returned. -/
  returned : Bool
  deriving DecidableEq

/-- The atomic actions of a run. -/
inductive PoolAction where
  /-- The walk sends the next path into the buffer of the channel. -/
  | send
  /-- The walk hands the next path to a worker waiting on the empty channel. -/
  | handoff
  /-- A worker receives the oldest path of the buffer and transforms it. -/
  | receive
  /-- The main goroutine closes the channel after the walk. -/
  | close
  /-- A worker finds the channel closed and empty and leaves its loop. -/
  | workerExit
  /-- The main goroutine returns (after `wg.Wait()` when multithreaded). -/
  | ret
  deriving DecidableEq

/-- The capacity of `fileChan := make(chan string, threads)`, made before `threads` is
clamped. -/
def poolCapacity (c : PoolConfig) : Nat := c.threads.toNat

/-- The number of workers started: none unless `useMultithread`, else `threads` after the
clamp `if threads > fileCount { threads = fileCount }`. -/
def poolWorkers (c : PoolConfig) : Nat :=
  if c.useMultithread then
    (if c.threads > (c.files.length : Int) then (c.files.length : Int) else c.threads).toNat
  else 0

/-- The transform calls a worker makes on a received path: `encryptFile` if `encrypt`,
else `decryptFile` if `decrypt`, else nothing. -/
def poolTransform (c : PoolConfig) (file : String) : List String :=
  if c.encrypt then [file] else if c.decrypt then [file] else []

/-- The state when the second walk starts; `none` when `make(chan string, threads)` panics
on a negative size. -/
def poolInit (c : PoolConfig) : Option PoolState :=
  if c.threads < 0 then none
  else some { pending := c.files, chan := [], closed := false, workers := poolWorkers c,
              calls := [], returned := false }

/-- One atomic action; `none` when the action is not enabled. -/
def poolStep (c : PoolConfig) (s : PoolState) : PoolAction → Option PoolState
  | PoolAction.send =>
    match s.pending with
    | [] => none
    | f :: rest =>
      if s.chan.length < poolCapacity c ∧ s.returned = false then
        some { s with pending := rest, chan := s.chan ++ [f] }
      else none
  | PoolAction.handoff =>
    match s.pending with
    | [] => none
    | f :: rest =>
      if s.chan = [] ∧ 0 < s.workers ∧ s.returned = false then
        some { s with pending := rest, calls := s.calls ++ poolTransform c f }
      else none
  | PoolAction.receive =>
    match s.chan with
    | [] => none
    | f :: rest =>
      if 0 < s.workers then
        some { s with chan := rest, calls := s.calls ++ poolTransform c f }
      else none
  | PoolAction.close =>
    if s.pending = [] ∧ c.useMultithread = true ∧ s.closed = false then
      some { s with closed := true }
    else none
  | PoolAction.workerExit =>
    if s.closed = true ∧ s.chan = [] ∧ 0 < s.workers then
      some { s with workers := s.workers - 1 }
    else none
  | PoolAction.ret =>
    if s.pending = [] ∧ s.returned = false
        ∧ (c.useMultithread = true → s.closed = true ∧ s.workers = 0) then
      some { s with returned := true }
    else none

/-- The state after a sequence of actions; `none` when one of them is not enabled. -/
def poolRun (c : PoolConfig) : List PoolAction → PoolState → Option PoolState
  | [], s => some s
  | a :: rest, s =>
    match poolStep c s a with
    | none => none
    | some s1 => poolRun c rest s1

/-- The function `processDirectory` under a schedule: the state the run reaches. -/
def processDirectory (c : PoolConfig) (schedule : List PoolAction) : Option PoolState :=
  match poolInit c with
  | none => none
  | some s => poolRun c schedule s

/-! ## Definitions used to state the theorems -/

/-- The buffer content the inner loop of pass `p` writes, given the buffer at its start. -/
def passBuffer (p : Nat) (fillByte : Byte) (buffer : Bytes) : Bytes :=
  if p % 3 ≠ 2 then buffer.map (fun _ => fillByte) else buffer

/-- The number of 4096-byte windows that cover `size` bytes: `ceil(size / 4096)`. -/
def windows (size : Nat) : Nat := (size + (bufSize - 1)) / bufSize

/-- The buffer content of pass `p` of `overwriteAndRemove`: 4096 bytes `0x00` when
`p % 3 = 0`, 4096 bytes `0xFF` when `p % 3 = 1`, and otherwise the 4096 bytes of the one
read of the random stream made at the start of the pass (reads `0 .. p/3 - 1` of the stream
were made by the earlier random passes). -/
def passPattern (rnd : Nat → Byte) (p : Nat) : Bytes :=
  if p % 3 = 0 then List.replicate bufSize 0x00
  else if p % 3 = 1 then List.replicate bufSize 0xFF
  else (randRead (fun i => rnd (bufSize * (p / 3) + i)) bufSize).1

/-- The plaintext chunks of a file: consecutive slices of 4096 bytes in file order, the last
one possibly shorter; no chunk is empty. -/
def chunks (F : Bytes) : List Bytes :=
  if F = [] then []
  else F.take bufSize :: chunks (F.drop bufSize)
termination_by F.length
decreasing_by
  cases F with
  | nil => contradiction
  | cons a t => simp only [bufSize, List.length_drop, List.length_cons]; omega

/-- The chunk records of a file: the seal of each plaintext chunk, in file order. -/
def chunkRecords (A : AEAD) (key nonce : Bytes) (F : Bytes) : List Bytes :=
  (chunks F).map (A.Seal key nonce)

/-- The plaintext of the leading chunks of an encrypted stream that open under `key` and
`nonce`, up to the end of the stream or the first chunk that fails to open. -/
def openedPrefix (A : AEAD) (key nonce : Bytes) (rest : Bytes) : Bytes :=
  if rest = [] then []
  else
    match A.Open key nonce (rest.take (bufSize + gcmOverhead)) with
    | none => []
    | some plaintext =>
      plaintext ++ openedPrefix A key nonce (rest.drop (bufSize + gcmOverhead))
termination_by rest.length
decreasing_by
  cases rest with
  | nil => contradiction
  | cons a t => simp only [bufSize, gcmOverhead, List.length_drop, List.length_cons]; omega

/-- The invariant of the multithreaded runs of `processDirectory` whose workers transform
every path they receive: the calls made, the channel buffer and the paths still to send
make up the enumeration in order; the buffer respects the capacity; a worker leaves only
when the channel is closed and drained; the channel is closed only after the walk; the
function returns only after the walk, the close and the exit of all workers. -/
def PoolInv (c : PoolConfig) (s : PoolState) : Prop :=
  s.calls ++ s.chan ++ s.pending = c.files ∧
  s.chan.length ≤ poolCapacity c ∧
  s.workers ≤ poolWorkers c ∧
  (s.workers < poolWorkers c → s.closed = true ∧ s.chan = []) ∧
  (s.closed = true → s.pending = []) ∧
  (s.returned = true → s.pending = [] ∧ s.closed = true ∧ s.workers = 0)

/-- A measure that every action decreases. -/
def poolMeasure (s : PoolState) : Nat :=
  3 * s.pending.length + 2 * s.chan.length + s.workers
    + (if s.closed then 0 else 1) + (if s.returned then 0 else 1)

/-! ## Concrete data used to instantiate the theorems -/

/-- The file system that holds the single file `path` with content `content`. -/
def fsOne (path : String) (content : Bytes) : FS :=
  fun q => if q = path then some content else none

/-- The bytes of the text `hello world`. -/
def helloWorld : Bytes := [104, 101, 108, 108, 111, 32, 119, 111, 114, 108, 100]

/-- A file of one byte. -/
def oneByteFile : Bytes := [7]

/-- A file of two whole windows (8192 bytes). -/
def twoWindowFile : Bytes := List.replicate (2 * bufSize) 7

/-- The key of 32 zero bytes. -/
def zeroKey : Bytes := List.replicate 32 0

/-- The key of 32 one bytes. -/
def oneKey : Bytes := List.replicate 32 1

/-- The random stream of zero bytes. -/
def zeroRnd : Nat → Byte := fun _ => 0

/-- A random stream that is constant on each block of 4096 bytes and changes from one block
to the next: byte `i` is `i / 4096` (modulo 256). -/
def blockRnd : Nat → Byte := fun i => ⟨(i / bufSize) % 256, Nat.mod_lt _ (by decide)⟩

/-- The tag of the toy cipher: 16 bytes made from the key and the nonce. -/
def toyTag (key nonce : Bytes) : Bytes :=
  (List.range gcmOverhead).map (fun i => key.getD i 0 + nonce.getD i 0)

/-- A toy cipher with the interface of AES-GCM: sealing appends the 16-byte tag, opening
checks the tag and strips it. -/
def toyCipher : AEAD where
  Seal key nonce plaintext := plaintext ++ toyTag key nonce
  Open key nonce ciphertext :=
    if gcmOverhead ≤ ciphertext.length
        ∧ ciphertext.drop (ciphertext.length - gcmOverhead) = toyTag key nonce then
      some (ciphertext.take (ciphertext.length - gcmOverhead))
    else none
  seal_length key nonce plaintext := by
    simp only [toyTag, List.length_append, List.length_map, List.length_range]

/-- A call of `processDirectory` as `main` makes it for `-e -r dir -t 1` on a directory
that holds the single regular file `a.txt` (`parseFlags` sets `useMultithread` to
`threads > 1`). -/
def oneFileSequential : PoolConfig :=
  { files := ["a.txt"], encrypt := true, decrypt := false, useMultithread := false,
    threads := 1 }

/-- The same call for `-t 0`. -/
def oneFileNoThreads : PoolConfig :=
  { files := ["a.txt"], encrypt := true, decrypt := false, useMultithread := false,
    threads := 0 }

/-! ## Lemmas on paths and on the file system -/

theorem hasSuffix_append (p s : String) : HasSuffix (p ++ s) s = true := by
  simp [HasSuffix, String.data_append]

theorem trimSuffix_append (p s : String) : TrimSuffix (p ++ s) s = p := by
  simp [TrimSuffix, hasSuffix_append, String.data_append]

theorem append_cryptsec_ne (p : String) : p ++ cryptsec ≠ p := by
  intro h
  have h1 := congrArg (fun s => s.data.length) h
  simp [String.data_append, cryptsec] at h1

theorem trimSuffix_cryptsec_ne (p : String) (h : HasSuffix p cryptsec = true) :
    TrimSuffix p cryptsec ≠ p := by
  intro h1
  have h2 := congrArg (fun s => s.data.length) h1
  have h3 : cryptsec.data.length ≤ p.data.length := by
    simp only [HasSuffix, decide_eq_true_eq] at h
    exact h.length_le
  have h4 : cryptsec.data.length = 9 := by decide
  simp only [TrimSuffix, h, if_true, List.length_take] at h2
  omega

theorem removeFile_of_some (fs : FS) (path : String) (c : Bytes) (h : fs path = some c) :
    removeFile fs path = some (fun q => if q = path then none else fs q) := by
  simp [removeFile, h]

/-! ## The overwrite loops -/

theorem passBuffer_length (p : Nat) (fb : Byte) (buffer : Bytes) :
    (passBuffer p fb buffer).length = buffer.length := by
  unfold passBuffer; split <;> simp

theorem passBuffer_idem (p : Nat) (fb : Byte) (buffer : Bytes) :
    passBuffer p fb (passBuffer p fb buffer) = passBuffer p fb buffer := by
  unfold passBuffer; split <;> simp

theorem writeLoop_spec (path : String) (p : Nat) (fb : Byte) (size : Nat) :
    ∀ (n written : Nat) (buffer content : Bytes) (fs : FS),
      buffer.length = bufSize → fs path = some content → written ≤ content.length →
      n = windows (size - written) →
      (writeLoop path p fb size written buffer fs).1.length = bufSize ∧
      (writeLoop path p fb size written buffer fs).2 = fun q =>
        if q = path then
          some (content.take written ++ (List.replicate n (passBuffer p fb buffer)).flatten
            ++ content.drop (written + bufSize * n))
        else fs q := by
  intro n
  induction n with
  | zero =>
    intro written buffer content fs hb hfs hw hn
    have hle : ¬ written < size := by
      simp only [windows, bufSize] at hn; omega
    rw [writeLoop]
    simp only [hle, if_false, hb, true_and]
    funext q
    by_cases hq : q = path
    · simp [hq, hfs]
    · simp [hq]
  | succ n ih =>
    intro written buffer content fs hb hfs hw hn
    have hlt : written < size := by
      simp only [windows, bufSize] at hn; omega
    have hW : (passBuffer p fb buffer).length = bufSize := by
      rw [passBuffer_length, hb]
    have hfs1 : writeAtFile fs path (passBuffer p fb buffer) written path
        = some (content.take written ++ passBuffer p fb buffer
            ++ content.drop (written + bufSize)) := by
      simp [writeAtFile, writeAt, hfs, hW, Nat.sub_eq_zero_of_le hw]
    have hn1 : n = windows (size - (written + bufSize)) := by
      simp only [windows, bufSize] at hn ⊢; omega
    have hlen : written + bufSize ≤ (content.take written ++ passBuffer p fb buffer
            ++ content.drop (written + bufSize)).length := by
      simp only [List.length_append, List.length_take, hW]; omega
    have key := ih (written + bufSize) (passBuffer p fb buffer) _ _ hW hfs1 hlen hn1
    rw [writeLoop]
    simp only [hlt, if_true]
    change (writeLoop path p fb size (written + bufSize) (passBuffer p fb buffer)
        (writeAtFile fs path (passBuffer p fb buffer) written)).1.length = bufSize ∧
      (writeLoop path p fb size (written + bufSize) (passBuffer p fb buffer)
        (writeAtFile fs path (passBuffer p fb buffer) written)).2 = _
    refine ⟨key.1, ?_⟩
    rw [key.2]
    funext q
    by_cases hq : q = path
    · simp only [hq, if_true, passBuffer_idem]
      congr 1
      have htk : (content.take written).length = written := by
        simp [List.length_take, hw]
      have e1 : List.take (written + bufSize)
          (content.take written ++ passBuffer p fb buffer ++ content.drop (written + bufSize))
          = content.take written ++ passBuffer p fb buffer := by
        apply List.take_left'
        simp [htk, hW]
      have e2 : List.drop (written + bufSize + bufSize * n)
          (content.take written ++ passBuffer p fb buffer ++ content.drop (written + bufSize))
          = content.drop (written + bufSize * (n + 1)) := by
        have : written + bufSize + bufSize * n
            = (content.take written ++ passBuffer p fb buffer).length + bufSize * n := by
          simp [htk, hW]
        rw [this, List.drop_append, List.drop_drop]
        congr 1
        ring
      rw [e1, e2, List.replicate_succ, List.flatten_cons]
      simp [List.append_assoc]
    · simp [hq, writeAtFile]

theorem length_flatten_replicate (m : Nat) (W : Bytes) :
    (List.replicate m W).flatten.length = m * W.length := by
  induction m with
  | zero => simp
  | succ m ih => rw [List.replicate_succ, List.flatten_cons, List.length_append, ih]; ring

theorem passPattern_length (rnd : Nat → Byte) (p : Nat) :
    (passPattern rnd p).length = bufSize := by
  unfold passPattern randRead; split_ifs <;> simp

theorem le_bufSize_mul_windows (size : Nat) : size ≤ bufSize * windows size := by
  simp only [windows, bufSize]; omega

/-- One pass of `overwriteAndRemove` on a file whose length lies between the size the
function stat-ed and that size rounded up to whole windows. -/
theorem overwritePass_spec (path : String) (size p : Nat) (s : EraseState) (c : Bytes)
    (hb : s.buffer.length = bufSize) (hc : s.fs path = some c)
    (hhi : c.length ≤ bufSize * windows size) :
    (overwritePass path size p s).buffer.length = bufSize ∧
    (overwritePass path size p s).rnd
      = (if p % 3 = 2 then (randRead s.rnd bufSize).2 else s.rnd) ∧
    (∀ q, q ≠ path → (overwritePass path size p s).fs q = s.fs q) ∧
    (overwritePass path size p s).fs path
      = some (List.replicate (windows size)
          (if p % 3 = 0 then List.replicate bufSize 0x00
           else if p % 3 = 1 then List.replicate bufSize 0xFF
           else (randRead s.rnd bufSize).1)).flatten := by
  have hwin : ∀ (fb : Byte) (buffer : Bytes), buffer.length = bufSize →
      (writeLoop path p fb size 0 buffer s.fs).1.length = bufSize ∧
      (writeLoop path p fb size 0 buffer s.fs).2 = fun q =>
        if q = path then
          some (List.replicate (windows size) (passBuffer p fb buffer)).flatten
        else s.fs q := by
    intro fb buffer hbuf
    have := writeLoop_spec path p fb size (windows size) 0 buffer c s.fs
      hbuf hc (Nat.zero_le _) rfl
    refine ⟨this.1, ?_⟩
    rw [this.2]
    funext q
    split_ifs
    · simp [List.drop_eq_nil_of_le hhi]
    · rfl
  unfold overwritePass
  by_cases h0 : p % 3 = 0
  · have hw := hwin 0x00 s.buffer hb
    have h2 : ¬ p % 3 = 2 := by omega
    simp only [h0, if_true]
    refine ⟨hw.1, ?_, ?_, ?_⟩
    · simp
    · intro q hne; rw [hw.2]; simp [hne]
    · rw [hw.2]
      simp [passBuffer, h0, hb, List.map_const']
  · by_cases h1 : p % 3 = 1
    · have hw := hwin 0xFF s.buffer hb
      have h2 : ¬ p % 3 = 2 := by omega
      simp only [h0, h1, if_true, if_false]
      refine ⟨hw.1, ?_, ?_, ?_⟩
      · simp
      · intro q hne; rw [hw.2]; simp [hne]
      · rw [hw.2]
        simp [passBuffer, h1, hb, List.map_const']
    · have h2 : p % 3 = 2 := by omega
      have hrb : (randRead s.rnd bufSize).1.length = bufSize := by
        simp only [randRead, List.length_map, List.length_range]
      have hw := hwin 0x00 (randRead s.rnd bufSize).1 hrb
      simp only [h0, h1, if_false, if_pos h2]
      refine ⟨hw.1, trivial, ?_, ?_⟩
      · intro q hne; rw [hw.2]; simp [hne]
      · rw [hw.2]
        simp [passBuffer, h2]

/-- The invariant of the outer loop of `overwriteAndRemove`. -/
theorem overwritePasses_spec (fs : FS) (path : String) (content : Bytes) (rnd : Nat → Byte)
    (h : fs path = some content) (n : Nat) :
    (overwritePasses path content.length (eraseInit fs rnd) n).buffer.length = bufSize ∧
    (overwritePasses path content.length (eraseInit fs rnd) n).rnd
      = (fun i => rnd (bufSize * (n / 3) + i)) ∧
    (∀ q, q ≠ path → (overwritePasses path content.length (eraseInit fs rnd) n).fs q = fs q) ∧
    (overwritePasses path content.length (eraseInit fs rnd) n).fs path
      = some (if n = 0 then content
          else (List.replicate (windows content.length) (passPattern rnd (n - 1))).flatten) := by
  induction n with
  | zero => simp [overwritePasses, eraseInit, h]
  | succ p ih =>
    obtain ⟨hb, hr, hq, hc⟩ := ih
    have hhi : (if p = 0 then content
          else (List.replicate (windows content.length) (passPattern rnd (p - 1))).flatten).length
          ≤ bufSize * windows content.length := by
      split_ifs
      · exact le_bufSize_mul_windows _
      · rw [length_flatten_replicate, passPattern_length, Nat.mul_comm]
    have step := overwritePass_spec path content.length p _ _ hb hc hhi
    obtain ⟨sb, sr, sq, sc⟩ := step
    simp only [overwritePasses, Nat.add_sub_cancel, Nat.succ_ne_zero, if_false]
    refine ⟨sb, ?_, ?_, ?_⟩
    · rw [sr, hr]
      split_ifs with h2
      · funext i; simp only [randRead]
        have : (p + 1) / 3 = p / 3 + 1 := by omega
        rw [this]; congr 1; ring
      · funext i
        have : (p + 1) / 3 = p / 3 := by omega
        rw [this]
    · intro q hne; rw [sq q hne, hq q hne]
    · rw [sc, hr]; rfl

theorem flatten_replicate_replicate (m n : Nat) (x : Byte) :
    (List.replicate m (List.replicate n x)).flatten = List.replicate (n * m) x := by
  induction m with
  | zero => simp
  | succ m ih =>
    rw [List.replicate_succ, List.flatten_cons, ih, Nat.mul_succ, Nat.add_comm,
      List.replicate_add]

/-! ## Secure erase: theorems -/

/-- C7. Erase removes the file: on an existing file `overwriteAndRemove` returns no error for
every pass count (non-positive: plain delete; positive: after the overwrite passes), the
path does not exist afterwards and every other path is unchanged. -/
theorem overwriteAndRemove_removes (fs : FS) (path : String) (content : Bytes)
    (passes : Int) (rnd : Nat → Byte) (h : fs path = some content) :
    (overwriteAndRemove fs path passes rnd).2 = none ∧
    (overwriteAndRemove fs path passes rnd).1 path = none ∧
    ∀ q, q ≠ path → (overwriteAndRemove fs path passes rnd).1 q = fs q := by
  unfold overwriteAndRemove
  by_cases hp : passes ≤ 0
  · simp only [hp, if_true, removeFile_of_some fs path content h]
    refine ⟨trivial, by simp, ?_⟩
    intro q hq; simp [hq]
  · obtain ⟨_, _, hq, hc⟩ := overwritePasses_spec fs path content rnd h passes.toNat
    simp only [hp, if_false, h, removeFile_of_some _ path _ hc]
    refine ⟨trivial, by simp, ?_⟩
    intro q hne; simp [hne, hq q hne]

theorem overwriteAndRemove_removes_witness :
    fsOne "a.txt" helloWorld "a.txt" = some helloWorld ∧
    ((overwriteAndRemove (fsOne "a.txt" helloWorld) "a.txt" 3 zeroRnd).2 = none ∧
    (overwriteAndRemove (fsOne "a.txt" helloWorld) "a.txt" 3 zeroRnd).1 "a.txt" = none ∧
    ∀ q, q ≠ "a.txt" →
      (overwriteAndRemove (fsOne "a.txt" helloWorld) "a.txt" 3 zeroRnd).1 q
        = fsOne "a.txt" helloWorld q) :=
  ⟨by simp [fsOne],
    overwriteAndRemove_removes (fsOne "a.txt" helloWorld) "a.txt" helloWorld 3 zeroRnd
      (by simp [fsOne])⟩

/-- C8 (as amended). In-place overwrite passes: after pass `p` of `overwriteAndRemove` on a
file of size `S` the file holds `ceil(S / 4096)` whole 4096-byte windows, that is
`4096 * ceil(S / 4096)` bytes (the size rounded up to a multiple of 4096): all `0x00` when
`p mod 3 = 0`, all `0xFF` when `p mod 3 = 1`, and when `p mod 3 = 2` every window is the same
4096-byte buffer, read from the random stream once at the start of the pass. -/
theorem overwrite_pass_content (fs : FS) (path : String) (content : Bytes) (rnd : Nat → Byte)
    (p : Nat) (h : fs path = some content) :
    ∃ c, (overwritePasses path content.length (eraseInit fs rnd) (p + 1)).fs path = some c ∧
      c.length = 4096 * ((content.length + 4095) / 4096) ∧
      (p % 3 = 0 → c = List.replicate (4096 * ((content.length + 4095) / 4096)) 0x00) ∧
      (p % 3 = 1 → c = List.replicate (4096 * ((content.length + 4095) / 4096)) 0xFF) ∧
      (p % 3 = 2 → c = (List.replicate ((content.length + 4095) / 4096)
          (randRead (fun i => rnd (4096 * (p / 3) + i)) 4096).1).flatten) := by
  obtain ⟨_, _, _, hc⟩ := overwritePasses_spec fs path content rnd h (p + 1)
  refine ⟨_, hc, ?_, ?_, ?_, ?_⟩
  · simp only [Nat.succ_ne_zero, if_false, Nat.add_sub_cancel, length_flatten_replicate,
      passPattern_length, windows, bufSize]
    omega
  · intro h0
    simp only [Nat.succ_ne_zero, if_false, Nat.add_sub_cancel, passPattern, h0, if_true,
      flatten_replicate_replicate, windows, bufSize]
  · intro h1
    have h0 : ¬ p % 3 = 0 := by omega
    simp only [Nat.succ_ne_zero, if_false, Nat.add_sub_cancel, passPattern, h0, if_pos h1,
      flatten_replicate_replicate, windows, bufSize]
  · intro h2
    have h0 : ¬ p % 3 = 0 := by omega
    have h1 : ¬ p % 3 = 1 := by omega
    simp only [Nat.succ_ne_zero, if_false, Nat.add_sub_cancel, passPattern, h0, h1,
      windows, bufSize]

theorem overwrite_pass_content_witness :
    fsOne "a.txt" helloWorld "a.txt" = some helloWorld ∧
    ∃ c, (overwritePasses "a.txt" helloWorld.length
        (eraseInit (fsOne "a.txt" helloWorld) blockRnd) (2 + 1)).fs "a.txt" = some c ∧
      c.length = 4096 * ((helloWorld.length + 4095) / 4096) ∧
      (2 % 3 = 0 → c = List.replicate (4096 * ((helloWorld.length + 4095) / 4096)) 0x00) ∧
      (2 % 3 = 1 → c = List.replicate (4096 * ((helloWorld.length + 4095) / 4096)) 0xFF) ∧
      (2 % 3 = 2 → c = (List.replicate ((helloWorld.length + 4095) / 4096)
          (randRead (fun i => blockRnd (4096 * (2 / 3) + i)) 4096).1).flatten) :=
  ⟨by simp [fsOne],
    overwrite_pass_content (fsOne "a.txt" helloWorld) "a.txt" helloWorld blockRnd 2
      (by simp [fsOne])⟩

theorem mem_randRead (rnd : Nat → Byte) (n : Nat) (b : Byte) (hb : b ∈ (randRead rnd n).1) :
    ∃ i, i < n ∧ rnd i = b := by
  simp only [randRead, List.mem_map, List.mem_range] at hb
  exact hb

theorem blockRnd_first_read : (randRead blockRnd bufSize).1 = List.replicate bufSize 0 := by
  refine List.eq_replicate_iff.mpr
    ⟨by simp only [randRead, List.length_map, List.length_range], ?_⟩
  intro b hb
  obtain ⟨i, hi, hbi⟩ := mem_randRead _ _ _ hb
  rw [← hbi]
  apply Fin.ext
  simp only [blockRnd, Nat.div_eq_of_lt hi]
  rfl

theorem blockRnd_second_read :
    (randRead (randRead blockRnd bufSize).2 bufSize).1 = List.replicate bufSize 1 := by
  refine List.eq_replicate_iff.mpr
    ⟨by simp only [randRead, List.length_map, List.length_range], ?_⟩
  intro b hb
  obtain ⟨i, hi, hbi⟩ := mem_randRead _ _ _ hb
  rw [← hbi]
  apply Fin.ext
  have : (bufSize + i) / bufSize = 1 := by
    simp only [bufSize] at hi ⊢; omega
  show (blockRnd (bufSize + i)).val = _
  simp only [blockRnd, this]
  rfl

/-- C8, counterexample to the claim as stated.  A 1-byte file holds 4096 zero bytes after
pass 0, not 1 byte.  An 8192-byte file holds 8192 zero bytes after pass 2 under the random
stream `blockRnd`: both windows are the first read of the stream (4096 zero bytes), although
a second read of the stream would have given 4096 one bytes, and the stream has advanced by
one buffer only. -/
theorem overwrite_pass_counterexample :
    (overwritePasses "f" oneByteFile.length (eraseInit (fsOne "f" oneByteFile) blockRnd) 1).fs "f"
      = some (List.replicate bufSize 0x00) ∧
    (overwritePasses "f" oneByteFile.length (eraseInit (fsOne "f" oneByteFile) blockRnd) 1).fs "f"
      ≠ some (List.replicate oneByteFile.length 0x00) ∧
    (overwritePasses "f" twoWindowFile.length
        (eraseInit (fsOne "f" twoWindowFile) blockRnd) 3).fs "f"
      = some ((randRead blockRnd bufSize).1 ++ (randRead blockRnd bufSize).1) ∧
    (randRead blockRnd bufSize).1 ≠ (randRead (randRead blockRnd bufSize).2 bufSize).1 ∧
    (overwritePasses "f" twoWindowFile.length
        (eraseInit (fsOne "f" twoWindowFile) blockRnd) 3).rnd
      = (randRead blockRnd bufSize).2 := by
  have h1 := overwritePasses_spec (fsOne "f" oneByteFile) "f" oneByteFile blockRnd
    (by simp [fsOne]) 1
  have h2 := overwritePasses_spec (fsOne "f" twoWindowFile) "f" twoWindowFile blockRnd
    (by simp [fsOne]) 3
  have w1 : windows oneByteFile.length = 1 := by decide
  have w2 : windows twoWindowFile.length = 2 := by
    rw [twoWindowFile, List.length_replicate]; decide
  have e1 : (overwritePasses "f" oneByteFile.length
      (eraseInit (fsOne "f" oneByteFile) blockRnd) 1).fs "f"
      = some (List.replicate bufSize 0x00) := by
    rw [h1.2.2.2, w1]
    simp [passPattern]
  refine ⟨e1, ?_, ?_, ?_, ?_⟩
  · rw [e1]
    intro h
    have := congrArg (fun o => o.map List.length) h
    simp only [Option.map_some', List.length_replicate, Option.some.injEq] at this
    exact absurd this (by decide)
  · rw [h2.2.2.2, w2]
    simp [passPattern, List.replicate_succ]
  · rw [blockRnd_first_read, blockRnd_second_read]
    intro h
    rw [List.replicate_right_inj (by decide : bufSize ≠ 0)] at h
    exact absurd h (by decide)
  · rw [h2.2.1]
    funext i
    simp [randRead]

/-! ## Chunks and chunk records -/

theorem chunks_nil : chunks [] = [] := by
  rw [chunks]; simp

theorem chunks_of_ne_nil (F : Bytes) (h : F ≠ []) :
    chunks F = F.take bufSize :: chunks (F.drop bufSize) := by
  rw [chunks]; simp [h]

theorem chunkRecords_nil (A : AEAD) (key nonce : Bytes) : chunkRecords A key nonce [] = [] := by
  simp [chunkRecords, chunks_nil]

theorem chunkRecords_of_ne_nil (A : AEAD) (key nonce : Bytes) (F : Bytes) (h : F ≠ []) :
    chunkRecords A key nonce F
      = A.Seal key nonce (F.take bufSize) :: chunkRecords A key nonce (F.drop bufSize) := by
  simp [chunkRecords, chunks_of_ne_nil F h]

theorem chunks_flatten (F : Bytes) : (chunks F).flatten = F := by
  induction F using chunks.induct with
  | case1 => simp [chunks_nil]
  | case2 F h ih =>
    rw [chunks_of_ne_nil F h, List.flatten_cons, ih, List.take_append_drop]

theorem chunks_length (F : Bytes) : (chunks F).length = windows F.length := by
  induction F using chunks.induct with
  | case1 => simp [chunks_nil, windows, bufSize]
  | case2 F h ih =>
    have hpos : 0 < F.length := List.length_pos.mpr h
    rw [chunks_of_ne_nil F h, List.length_cons, ih, List.length_drop]
    simp only [windows, bufSize]
    omega

theorem chunks_mem (F : Bytes) : ∀ c ∈ chunks F, c ≠ [] ∧ c.length ≤ bufSize := by
  induction F using chunks.induct with
  | case1 => simp [chunks_nil]
  | case2 F h ih =>
    intro c hc
    rw [chunks_of_ne_nil F h, List.mem_cons] at hc
    rcases hc with rfl | hc
    · refine ⟨?_, ?_⟩
      · intro h0
        have := congrArg List.length h0
        have hpos : 0 < F.length := List.length_pos.mpr h
        simp only [List.length_take, List.length_nil, bufSize] at this
        omega
      · simp only [List.length_take]; omega
    · exact ih c hc

/-- The length of the sealed stream: every chunk grows by the tag. -/
theorem chunkRecords_flatten_length (A : AEAD) (key nonce : Bytes)
    (F : Bytes) :
    (chunkRecords A key nonce F).flatten.length
      = F.length + gcmOverhead * windows F.length := by
  induction F using chunks.induct with
  | case1 => simp [chunkRecords_nil, windows, bufSize]
  | case2 F h ih =>
    have hpos : 0 < F.length := List.length_pos.mpr h
    rw [chunkRecords_of_ne_nil A key nonce F h, List.flatten_cons, List.length_append, ih, A.seal_length,
      List.length_take, List.length_drop]
    simp only [windows, bufSize, gcmOverhead]
    omega

/-- The first read of the decryption loop on a sealed stream returns exactly the first
record, and leaves the records of the rest of the file. -/
theorem chunkRecords_take_drop (A : AEAD) (key nonce : Bytes)
    (F : Bytes) (h : F ≠ []) :
    (chunkRecords A key nonce F).flatten.take (bufSize + gcmOverhead)
        = A.Seal key nonce (F.take bufSize) ∧
    (chunkRecords A key nonce F).flatten.drop (bufSize + gcmOverhead)
        = (chunkRecords A key nonce (F.drop bufSize)).flatten ∧
    (chunkRecords A key nonce F).flatten ≠ [] := by
  rw [chunkRecords_of_ne_nil A key nonce F h, List.flatten_cons]
  have hpos : 0 < F.length := List.length_pos.mpr h
  have hne : A.Seal key nonce (F.take bufSize)
      ++ (chunkRecords A key nonce (F.drop bufSize)).flatten ≠ [] := by
    intro h0
    have := congrArg List.length h0
    simp only [List.length_append, A.seal_length, List.length_nil, gcmOverhead] at this
    omega
  by_cases hfull : bufSize ≤ F.length
  · have hl : (A.Seal key nonce (F.take bufSize)).length = bufSize + gcmOverhead := by
      rw [A.seal_length, List.length_take, Nat.min_eq_left hfull]
    refine ⟨List.take_left' hl, ?_, hne⟩
    rw [← hl, List.drop_left]
  · have hd : F.drop bufSize = [] := List.drop_eq_nil_of_le (by omega)
    have hl : (A.Seal key nonce (F.take bufSize)).length ≤ bufSize + gcmOverhead := by
      rw [A.seal_length, List.length_take]; omega
    rw [hd, chunkRecords_nil, List.flatten_nil, List.append_nil] at hne ⊢
    exact ⟨List.take_of_length_le hl, List.drop_eq_nil_of_le hl, hne⟩

/-- The first `k` chunks of a file are the chunks of its first `4096 * k` bytes. -/
theorem chunks_take (k : Nat) : ∀ F : Bytes, (chunks F).take k = chunks (F.take (bufSize * k)) := by
  induction k with
  | zero => intro F; simp [chunks_nil]
  | succ k ih =>
    intro F
    by_cases h : F = []
    · simp [h, chunks_nil]
    · have hpos : 0 < F.length := List.length_pos.mpr h
      have hG : F.take (bufSize * (k + 1)) ≠ [] := by
        intro h0
        have := congrArg List.length h0
        simp only [List.length_take, List.length_nil, bufSize] at this
        omega
      have hGt : (F.take (bufSize * (k + 1))).take bufSize = F.take bufSize := by
        rw [List.take_take, Nat.min_eq_left (by simp only [bufSize]; omega)]
      have hGd : (F.take (bufSize * (k + 1))).drop bufSize
          = (F.drop bufSize).take (bufSize * k) := by
        have e : bufSize * (k + 1) - bufSize = bufSize * k := by
          simp only [bufSize]; omega
        rw [List.drop_take, e]
      rw [chunks_of_ne_nil F h, chunks_of_ne_nil _ hG, hGt, hGd, List.take_succ_cons, ih]

theorem chunkRecords_take (A : AEAD) (key nonce : Bytes) (k : Nat) (F : Bytes) :
    (chunkRecords A key nonce F).take k = chunkRecords A key nonce (F.take (bufSize * k)) := by
  simp only [chunkRecords, ← List.map_take, chunks_take]

/-! ## The loops of `encryptFile` and `decryptFile` -/

theorem overwriteAndRemove_eq (fs : FS) (path : String) (content : Bytes)
    (passes : Int) (rnd : Nat → Byte) (h : fs path = some content) :
    overwriteAndRemove fs path passes rnd = (fun q => if q = path then none else fs q, none) := by
  unfold overwriteAndRemove
  by_cases hp : passes ≤ 0
  · simp only [hp, if_true, removeFile_of_some fs path content h]
  · obtain ⟨_, _, hq, hc⟩ := overwritePasses_spec fs path content rnd h passes.toNat
    simp only [hp, if_false, h, removeFile_of_some _ path _ hc]
    congr 1
    funext q
    by_cases hne : q = path
    · simp [hne]
    · simp [hne, hq q hne]

/-- The encryption loop appends the chunk records of the input to the output file. -/
theorem encryptLoop_spec (A : AEAD) (key nonce : Bytes) (out : String) (F : Bytes) :
    ∀ (fs : FS) (x : Bytes), fs out = some x →
      encryptLoop A key nonce out F fs
        = fun q => if q = out then some (x ++ (chunkRecords A key nonce F).flatten) else fs q := by
  induction F using chunks.induct with
  | case1 =>
    intro fs x hx
    rw [encryptLoop]
    simp only [if_true, chunkRecords_nil, List.flatten_nil, List.append_nil]
    funext q
    by_cases hq : q = out
    · simp [hq, hx]
    · simp [hq]
  | case2 F h ih =>
    intro fs x hx
    rw [encryptLoop]
    simp only [h, if_false]
    rw [ih (appendFile fs out (A.Seal key nonce (F.take bufSize)))
      (x ++ A.Seal key nonce (F.take bufSize)) (by simp [appendFile, hx]),
      chunkRecords_of_ne_nil A key nonce F h, List.flatten_cons]
    funext q
    by_cases hq : q = out
    · simp [hq]
    · simp [hq, appendFile]

/-- Under the key and nonce of the seal, the decryption loop appends the plaintext to the
output file and reports no error. -/
theorem decryptLoop_records (A : AEAD) (key nonce : Bytes) (out : String)
    (hopen : ∀ pt, A.Open key nonce (A.Seal key nonce pt) = some pt)
    (G : Bytes) :
    ∀ (fs : FS) (x : Bytes), fs out = some x →
      decryptLoop A key nonce out (chunkRecords A key nonce G).flatten fs
        = (fun q => if q = out then some (x ++ G) else fs q, none) := by
  induction G using chunks.induct with
  | case1 =>
    intro fs x hx
    rw [chunkRecords_nil, List.flatten_nil, decryptLoop]
    simp only [if_true, List.append_nil]
    congr 1
    funext q
    by_cases hq : q = out
    · simp [hq, hx]
    · simp [hq]
  | case2 G h ih =>
    intro fs x hx
    obtain ⟨ht, hd, hne⟩ := chunkRecords_take_drop A key nonce G h
    rw [decryptLoop]
    simp only [hne, if_false, ht, hopen, hd]
    rw [ih (appendFile fs out (G.take bufSize)) (x ++ G.take bufSize)
      (by simp [appendFile, hx])]
    congr 1
    funext q
    by_cases hq : q = out
    · simp [hq, List.append_assoc]
    · simp [hq, appendFile]

/-- When the first chunk record of a non-empty file does not open, the decryption loop
stops with the decryption error without writing. -/
theorem decryptLoop_wrong_key (A : AEAD) (key key2 nonce : Bytes) (out : String)
    (F : Bytes) (hwrong : A.Open key2 nonce (A.Seal key nonce (F.take bufSize)) = none)
    (h : F ≠ []) (fs : FS) :
    decryptLoop A key2 nonce out (chunkRecords A key nonce F).flatten fs
      = (fs, some Err.decryptData) := by
  obtain ⟨ht, _, hne⟩ := chunkRecords_take_drop A key nonce F h
  rw [decryptLoop]
  simp only [hne, if_false, ht, hwrong]

/-- What the decryption loop leaves in the file system, whatever its result: the output
file has grown by the plaintext of the chunks opened so far, nothing else has changed. -/
theorem decryptLoop_fs (A : AEAD) (key nonce : Bytes) (out : String) (rest : Bytes) (fs : FS) :
    ∀ x : Bytes, fs out = some x →
      (decryptLoop A key nonce out rest fs).1
        = fun q => if q = out then some (x ++ openedPrefix A key nonce rest) else fs q := by
  induction rest, fs using decryptLoop.induct A key nonce out with
  | case1 fs =>
    intro x hx
    rw [decryptLoop, openedPrefix]
    simp only [if_true, List.append_nil]
    funext q
    by_cases hq : q = out
    · simp [hq, hx]
    · simp [hq]
  | case2 rest fs hne hopen =>
    intro x hx
    rw [decryptLoop, openedPrefix]
    simp only [hne, if_false, hopen, List.append_nil]
    funext q
    by_cases hq : q = out
    · simp [hq, hx]
    · simp [hq]
  | case3 rest fs hne pt hopen ih =>
    intro x hx
    rw [decryptLoop, openedPrefix]
    simp only [hne, if_false, hopen]
    rw [ih (x ++ pt) (by simp [appendFile, hx])]
    funext q
    by_cases hq : q = out
    · simp [hq, List.append_assoc]
    · simp [hq, appendFile]

/-! ## The functions `encryptFile` and `decryptFile` -/

theorem randRead_length (rnd : Nat → Byte) (n : Nat) : (randRead rnd n).1.length = n := by
  simp only [randRead, List.length_map, List.length_range]

/-- A successful `encryptFile` on a plain path had an existing input and a valid key size. -/
theorem encryptFile_success_key (A : AEAD) (fs : FS) (path : String) (key : Bytes)
    (passes : Int) (rnd : Nat → Byte) (F : Bytes)
    (hsuf : HasSuffix path cryptsec = false) (hF : fs path = some F)
    (henc : (encryptFile A fs path key passes rnd).2 = none) :
    validKeySize key.length = true := by
  by_contra hk
  simp [encryptFile, hsuf, hF, hk] at henc

/-- The whole effect of `encryptFile` on an existing plain file, for a key of valid size. -/
theorem encryptFile_eq (A : AEAD) (fs : FS) (path : String) (key : Bytes)
    (passes : Int) (rnd : Nat → Byte) (F : Bytes)
    (hsuf : HasSuffix path cryptsec = false) (hF : fs path = some F)
    (hk : validKeySize key.length = true) :
    encryptFile A fs path key passes rnd
      = (fun q => if q = path then none
          else if q = path ++ cryptsec then
            some ((randRead rnd gcmNonceSize).1
              ++ (chunkRecords A key (randRead rnd gcmNonceSize).1 F).flatten)
          else fs q, none) := by
  have hne : path ≠ path ++ cryptsec := fun h => append_cryptsec_ne path h.symm
  have h1 : appendFile (createFile fs (path ++ cryptsec)) (path ++ cryptsec)
      (randRead rnd gcmNonceSize).1 (path ++ cryptsec)
      = some (randRead rnd gcmNonceSize).1 := by
    simp [appendFile, createFile]
  have h2 := encryptLoop_spec A key (randRead rnd gcmNonceSize).1 (path ++ cryptsec) F _ _ h1
  have h3 : encryptLoop A key (randRead rnd gcmNonceSize).1 (path ++ cryptsec) F
      (appendFile (createFile fs (path ++ cryptsec)) (path ++ cryptsec)
        (randRead rnd gcmNonceSize).1) path = some F := by
    rw [h2]; simp [hne, appendFile, createFile, hF]
  simp only [encryptFile, hsuf, hF, hk, if_true, Bool.false_eq_true, if_false]
  rw [overwriteAndRemove_eq _ path F passes _ h3, h2]
  congr 1
  funext q
  by_cases hq : q = path
  · simp [hq]
  · by_cases hq2 : q = path ++ cryptsec
    · simp [hq2, hne.symm]
    · simp [hq, hq2, appendFile, createFile]

/-- The whole effect of `decryptFile`, under the key of the seal, on a file made of a nonce
and the chunk records of `G`. -/
theorem decryptFile_records (A : AEAD) (fs : FS) (path : String) (key nonce : Bytes)
    (passes : Int) (G : Bytes)
    (hopen : ∀ pt, A.Open key nonce (A.Seal key nonce pt) = some pt)
    (hk : validKeySize key.length = true) (hn : nonce.length = gcmNonceSize)
    (h : fs (path ++ cryptsec) = some (nonce ++ (chunkRecords A key nonce G).flatten)) :
    decryptFile A fs (path ++ cryptsec) key passes
      = (fun q => if q = path ++ cryptsec then none
          else if q = path then some G else fs q, none) := by
  have hne : path ≠ path ++ cryptsec := fun h => append_cryptsec_ne path h.symm
  have hl : ¬ (nonce ++ (chunkRecords A key nonce G).flatten).length < gcmNonceSize := by
    rw [List.length_append, hn]; omega
  have h1 : createFile fs path path = some [] := by simp [createFile]
  have h2 := decryptLoop_records A key nonce path hopen G (createFile fs path) [] h1
  simp only [decryptFile, hasSuffix_append, h, hk, if_true, hl, if_false, trimSuffix_append,
    List.take_left' hn, List.drop_left' hn, h2]
  have h3 : (fun q => if q = path then some ([] ++ G) else createFile fs path q)
      (path ++ cryptsec) = some (nonce ++ (chunkRecords A key nonce G).flatten) := by
    simp [hne.symm, createFile, h]
  rw [removeFile_of_some _ _ _ h3]
  dsimp only
  congr 1
  funext q
  by_cases hq2 : q = path ++ cryptsec
  · simp [hq2]
  · by_cases hq : q = path
    · simp [hq, hne]
    · simp [hq, hq2, createFile]

/-- The whole effect of `decryptFile`, under a key that does not open the first chunk
record, on a file made of a nonce and the chunk records of a non-empty `F`: the output
file has been created and the function returns the decryption error. -/
theorem decryptFile_wrong_key_eq (A : AEAD) (fs : FS) (path : String) (key key2 nonce : Bytes)
    (passes : Int) (F : Bytes)
    (hwrong : A.Open key2 nonce (A.Seal key nonce (F.take bufSize)) = none)
    (hk : validKeySize key2.length = true) (hn : nonce.length = gcmNonceSize)
    (hF : F ≠ [])
    (h : fs (path ++ cryptsec) = some (nonce ++ (chunkRecords A key nonce F).flatten)) :
    decryptFile A fs (path ++ cryptsec) key2 passes
      = (createFile fs path, some Err.decryptData) := by
  have hl : ¬ (nonce ++ (chunkRecords A key nonce F).flatten).length < gcmNonceSize := by
    rw [List.length_append, hn]; omega
  have h2 := decryptLoop_wrong_key A key key2 nonce path F hwrong hF (createFile fs path)
  simp only [decryptFile, hasSuffix_append, h, hk, if_true, hl, if_false, trimSuffix_append,
    List.take_left' hn, List.drop_left' hn, h2]

/-- The whole effect of `decryptFile`, under any key of a valid size, on a file that holds
a nonce and no chunk record: the read loop meets the end of the file at once, an empty
output file is created and the input is removed. -/
theorem decryptFile_nonce_only (A : AEAD) (fs : FS) (path : String) (key2 nonce : Bytes)
    (passes : Int) (hk : validKeySize key2.length = true) (hn : nonce.length = gcmNonceSize)
    (h : fs (path ++ cryptsec) = some nonce) :
    decryptFile A fs (path ++ cryptsec) key2 passes
      = (fun q => if q = path ++ cryptsec then none
          else if q = path then some [] else fs q, none) := by
  have hne : path ≠ path ++ cryptsec := fun h => append_cryptsec_ne path h.symm
  have hl : ¬ nonce.length < gcmNonceSize := by rw [hn]; omega
  have hd : nonce.drop gcmNonceSize = [] := List.drop_eq_nil_of_le (by rw [hn])
  have h2 : decryptLoop A key2 (nonce.take gcmNonceSize) path [] (createFile fs path)
      = (createFile fs path, none) := by
    rw [decryptLoop]; simp
  have h3 : createFile fs path (path ++ cryptsec) = some nonce := by
    simp [hne.symm, createFile, h]
  simp only [decryptFile, hasSuffix_append, h, hk, if_true, hl, if_false, trimSuffix_append,
    hd, h2]
  rw [removeFile_of_some _ _ _ h3]
  rfl

/-! ## The toy cipher -/

theorem toyTag_length (key nonce : Bytes) : (toyTag key nonce).length = gcmOverhead := by
  simp [toyTag]

theorem toy_open_seal (key nonce pt : Bytes) :
    toyCipher.Open key nonce (toyCipher.Seal key nonce pt) = some pt := by
  simp [toyCipher, toyTag_length]

theorem toyTag_head (key nonce : Bytes) :
    (toyTag key nonce).head? = some (key.getD 0 0 + nonce.getD 0 0) := rfl

theorem toy_wrong_key (nonce pt : Bytes) :
    toyCipher.Open oneKey nonce (toyCipher.Seal zeroKey nonce pt) = none := by
  have hne : toyTag zeroKey nonce ≠ toyTag oneKey nonce := by
    intro h
    have h1 := congrArg List.head? h
    rw [toyTag_head, toyTag_head, Option.some.injEq] at h1
    have h2 := add_right_cancel h1
    exact absurd h2 (by decide)
  simp [toyCipher, toyTag_length, hne]

/-! ## Runs of the toy cipher on a single file -/

theorem hasSuffix_a_txt : HasSuffix "a.txt" cryptsec = false := by decide

theorem validKeySize_zeroKey : validKeySize zeroKey.length = true := by decide

theorem validKeySize_oneKey : validKeySize oneKey.length = true := by decide

theorem fsOne_self (path : String) (F : Bytes) : fsOne path F path = some F := by
  simp [fsOne]

theorem toy_encrypt_eq (F : Bytes) (passes : Int) :
    encryptFile toyCipher (fsOne "a.txt" F) "a.txt" zeroKey passes zeroRnd
      = (fun q => if q = "a.txt" then none
          else if q = "a.txt" ++ cryptsec then
            some ((randRead zeroRnd gcmNonceSize).1
              ++ (chunkRecords toyCipher zeroKey (randRead zeroRnd gcmNonceSize).1 F).flatten)
          else fsOne "a.txt" F q, none) :=
  encryptFile_eq toyCipher (fsOne "a.txt" F) "a.txt" zeroKey passes zeroRnd F
    hasSuffix_a_txt (fsOne_self "a.txt" F) validKeySize_zeroKey

theorem toy_encrypt_ok (F : Bytes) (passes : Int) :
    (encryptFile toyCipher (fsOne "a.txt" F) "a.txt" zeroKey passes zeroRnd).2 = none := by
  rw [toy_encrypt_eq]

theorem toy_encrypt_output (F : Bytes) (passes : Int) :
    (encryptFile toyCipher (fsOne "a.txt" F) "a.txt" zeroKey passes zeroRnd).1
        ("a.txt" ++ cryptsec)
      = some ((randRead zeroRnd gcmNonceSize).1
          ++ (chunkRecords toyCipher zeroKey (randRead zeroRnd gcmNonceSize).1 F).flatten) := by
  rw [toy_encrypt_eq]
  simp [append_cryptsec_ne]

theorem toy_encrypt_input_gone (F : Bytes) (passes : Int) :
    (encryptFile toyCipher (fsOne "a.txt" F) "a.txt" zeroKey passes zeroRnd).1 "a.txt"
      = none := by
  rw [toy_encrypt_eq]
  simp

/-- Decrypting the encryption of a non-empty file with the other key of the toy cipher. -/
theorem toy_decrypt_wrong_key (F : Bytes) (hF : F ≠ []) (passes passes2 : Int) :
    decryptFile toyCipher
        (encryptFile toyCipher (fsOne "a.txt" F) "a.txt" zeroKey passes zeroRnd).1
        ("a.txt" ++ cryptsec) oneKey passes2
      = (createFile (encryptFile toyCipher (fsOne "a.txt" F) "a.txt" zeroKey passes zeroRnd).1
          "a.txt", some Err.decryptData) :=
  decryptFile_wrong_key_eq toyCipher _ "a.txt" zeroKey oneKey _ passes2 F
    (toy_wrong_key _ _)
    validKeySize_oneKey (randRead_length zeroRnd gcmNonceSize) hF (toy_encrypt_output F passes)

/-- The two lengths of the concrete scenario: the encryption of the empty file has 12
bytes, the encryption of the 11 bytes of `hello world` has `12 + 11 + 16 = 39` bytes. -/
theorem toy_encrypt_lengths :
    ((encryptFile toyCipher (fsOne "a.txt" []) "a.txt" zeroKey 0 zeroRnd).1
        ("a.txt" ++ cryptsec)).map List.length = some 12 ∧
    ((encryptFile toyCipher (fsOne "a.txt" helloWorld) "a.txt" zeroKey 0 zeroRnd).1
        ("a.txt" ++ cryptsec)).map List.length = some 39 := by
  rw [toy_encrypt_output, toy_encrypt_output]
  simp only [Option.map_some', List.length_append, randRead_length,
    chunkRecords_flatten_length, Option.some.injEq]
  decide

/-! ## File transform: theorems -/

/-- C5. Idempotent skip: on a path that ends in `.cryptsec`, `encryptFile` returns no error
and leaves the whole file system unchanged, for every cipher, key, pass count and random
stream (so no cipher operation contributes to the result). -/
theorem encryptFile_skip (A : AEAD) (fs : FS) (path : String) (key : Bytes) (passes : Int)
    (rnd : Nat → Byte) (h : HasSuffix path cryptsec = true) :
    encryptFile A fs path key passes rnd = (fs, none) := by
  simp [encryptFile, h]

theorem encryptFile_skip_witness :
    HasSuffix ("a.txt" ++ cryptsec) cryptsec = true ∧
    encryptFile toyCipher (fsOne ("a.txt" ++ cryptsec) helloWorld) ("a.txt" ++ cryptsec)
      zeroKey 3 zeroRnd = (fsOne ("a.txt" ++ cryptsec) helloWorld, none) :=
  ⟨by decide,
    encryptFile_skip toyCipher (fsOne ("a.txt" ++ cryptsec) helloWorld) ("a.txt" ++ cryptsec)
      zeroKey 3 zeroRnd (by decide)⟩

/-- C6. Suffix required on decrypt: on a path that does not end in `.cryptsec`,
`decryptFile` returns the "not encrypted" error and leaves the whole file system
unchanged, for every cipher, key and pass count. -/
theorem decryptFile_requires_suffix (A : AEAD) (fs : FS) (path : String) (key : Bytes)
    (passes : Int) (h : HasSuffix path cryptsec = false) :
    decryptFile A fs path key passes = (fs, some Err.notEncrypted) := by
  simp [decryptFile, h]

theorem decryptFile_requires_suffix_witness :
    HasSuffix "a.txt" cryptsec = false ∧
    decryptFile toyCipher (fsOne "a.txt" helloWorld) "a.txt" zeroKey 3
      = (fsOne "a.txt" helloWorld, some Err.notEncrypted) :=
  ⟨by decide,
    decryptFile_requires_suffix toyCipher (fsOne "a.txt" helloWorld) "a.txt" zeroKey 3
      (by decide)⟩

/-- C4. Encrypted file framing and length: a successful `encryptFile` on a plaintext `F` of
length `L` leaves at `path ++ ".cryptsec"` the 12-byte nonce followed by the seals of the
chunks of `F` in file order; there are `ceil(L / 4096)` chunks, they concatenate to `F`, each
has at most 4096 bytes and its seal is 16 bytes longer; the output length is
`12 + L + 16 * ceil(L / 4096)`. -/
theorem encryptFile_framing (A : AEAD) (fs : FS) (path : String) (key : Bytes) (passes : Int)
    (rnd : Nat → Byte) (F : Bytes)
    (hsuf : HasSuffix path cryptsec = false) (hF : fs path = some F)
    (henc : (encryptFile A fs path key passes rnd).2 = none) :
    ∃ nonce out, nonce.length = 12 ∧
      (encryptFile A fs path key passes rnd).1 (path ++ cryptsec) = some out ∧
      out = nonce ++ ((chunks F).map (A.Seal key nonce)).flatten ∧
      (chunks F).length = (F.length + 4095) / 4096 ∧
      (chunks F).flatten = F ∧
      (∀ c ∈ chunks F, c.length ≤ 4096 ∧ (A.Seal key nonce c).length = c.length + 16) ∧
      out.length = 12 + F.length + 16 * ((F.length + 4095) / 4096) := by
  have hk := encryptFile_success_key A fs path key passes rnd F hsuf hF henc
  have hne : path ++ cryptsec ≠ path := append_cryptsec_ne path
  refine ⟨(randRead rnd gcmNonceSize).1, _, randRead_length rnd gcmNonceSize, ?_, rfl,
    chunks_length F, chunks_flatten F, ?_, ?_⟩
  · rw [encryptFile_eq A fs path key passes rnd F hsuf hF hk]
    simp [hne, chunkRecords]
  · intro c hc
    exact ⟨(chunks_mem F c hc).2, A.seal_length key _ c⟩
  · have := chunkRecords_flatten_length A key (randRead rnd gcmNonceSize).1 F
    rw [chunkRecords] at this
    rw [List.length_append, this, randRead_length]
    simp only [gcmNonceSize, gcmOverhead, windows, bufSize]
    omega

/-- C1. Round trip: when `encryptFile` succeeds on a plain path holding `F`, `decryptFile`
with the same key on `path ++ ".cryptsec"` succeeds, the file at `path` holds exactly `F`
again and the encrypted file is gone, for every cipher that opens what it sealed under
the same key and nonce. -/
theorem encrypt_decrypt_roundtrip (A : AEAD) (fs : FS) (path : String) (key : Bytes)
    (passes passes2 : Int) (rnd : Nat → Byte) (F : Bytes)
    (hopen : ∀ nonce pt, A.Open key nonce (A.Seal key nonce pt) = some pt)
    (hsuf : HasSuffix path cryptsec = false) (hF : fs path = some F)
    (henc : (encryptFile A fs path key passes rnd).2 = none) :
    (decryptFile A (encryptFile A fs path key passes rnd).1 (path ++ cryptsec) key passes2).2
      = none ∧
    (decryptFile A (encryptFile A fs path key passes rnd).1 (path ++ cryptsec) key passes2).1
      path = some F ∧
    (decryptFile A (encryptFile A fs path key passes rnd).1 (path ++ cryptsec) key passes2).1
      (path ++ cryptsec) = none := by
  have hk := encryptFile_success_key A fs path key passes rnd F hsuf hF henc
  have hne : path ++ cryptsec ≠ path := append_cryptsec_ne path
  have hE : (encryptFile A fs path key passes rnd).1 (path ++ cryptsec)
      = some ((randRead rnd gcmNonceSize).1
          ++ (chunkRecords A key (randRead rnd gcmNonceSize).1 F).flatten) := by
    rw [encryptFile_eq A fs path key passes rnd F hsuf hF hk]
    simp [hne]
  rw [decryptFile_records A _ path key _ passes2 F (hopen _) hk
    (randRead_length rnd gcmNonceSize) hE]
  simp [hne.symm]

/-- C10. Truncation at a chunk boundary is accepted: when `encryptFile` succeeds on a plain
path holding `F`, its output is the nonce followed by the chunk records of `F`, and on every
file system where `path ++ ".cryptsec"` holds the nonce followed by only the first `k` chunk
records, `decryptFile` with the same key succeeds, leaves exactly the first
`min(len(F), 4096 * k)` bytes of `F` at `path` and removes the input. -/
theorem decrypt_truncated_at_chunk_boundary (A : AEAD) (fs fs2 : FS) (path : String)
    (key : Bytes) (passes passes2 : Int) (rnd : Nat → Byte) (F : Bytes) (k : Nat)
    (hopen : ∀ nonce pt, A.Open key nonce (A.Seal key nonce pt) = some pt)
    (hsuf : HasSuffix path cryptsec = false) (hF : fs path = some F)
    (henc : (encryptFile A fs path key passes rnd).2 = none)
    (h2 : fs2 (path ++ cryptsec) = some ((randRead rnd gcmNonceSize).1
      ++ ((chunkRecords A key (randRead rnd gcmNonceSize).1 F).take k).flatten)) :
    (encryptFile A fs path key passes rnd).1 (path ++ cryptsec)
      = some ((randRead rnd gcmNonceSize).1
          ++ (chunkRecords A key (randRead rnd gcmNonceSize).1 F).flatten) ∧
    (decryptFile A fs2 (path ++ cryptsec) key passes2).2 = none ∧
    (decryptFile A fs2 (path ++ cryptsec) key passes2).1 path = some (F.take (4096 * k)) ∧
    (F.take (4096 * k)).length = min F.length (4096 * k) ∧
    (decryptFile A fs2 (path ++ cryptsec) key passes2).1 (path ++ cryptsec) = none := by
  have hk := encryptFile_success_key A fs path key passes rnd F hsuf hF henc
  have hne : path ++ cryptsec ≠ path := append_cryptsec_ne path
  rw [chunkRecords_take] at h2
  rw [decryptFile_records A fs2 path key _ passes2 _ (hopen _) hk
    (randRead_length rnd gcmNonceSize) h2,
    encryptFile_eq A fs path key passes rnd F hsuf hF hk]
  refine ⟨by simp [hne], rfl, by simp [hne.symm, bufSize], ?_, by simp⟩
  rw [List.length_take, Nat.min_comm]

theorem encryptFile_framing_witness :
    HasSuffix "a.txt" cryptsec = false ∧
    fsOne "a.txt" helloWorld "a.txt" = some helloWorld ∧
    (encryptFile toyCipher (fsOne "a.txt" helloWorld) "a.txt" zeroKey 0 zeroRnd).2 = none ∧
    ∃ nonce out, nonce.length = 12 ∧
      (encryptFile toyCipher (fsOne "a.txt" helloWorld) "a.txt" zeroKey 0 zeroRnd).1
        ("a.txt" ++ cryptsec) = some out ∧
      out = nonce ++ ((chunks helloWorld).map (toyCipher.Seal zeroKey nonce)).flatten ∧
      (chunks helloWorld).length = (helloWorld.length + 4095) / 4096 ∧
      (chunks helloWorld).flatten = helloWorld ∧
      (∀ c ∈ chunks helloWorld,
        c.length ≤ 4096 ∧ (toyCipher.Seal zeroKey nonce c).length = c.length + 16) ∧
      out.length = 12 + helloWorld.length + 16 * ((helloWorld.length + 4095) / 4096) :=
  ⟨hasSuffix_a_txt, fsOne_self "a.txt" helloWorld, toy_encrypt_ok helloWorld 0,
    encryptFile_framing toyCipher (fsOne "a.txt" helloWorld) "a.txt" zeroKey 0 zeroRnd
      helloWorld hasSuffix_a_txt
      (fsOne_self "a.txt" helloWorld) (toy_encrypt_ok helloWorld 0)⟩

theorem encrypt_decrypt_roundtrip_witness :
    HasSuffix "a.txt" cryptsec = false ∧
    fsOne "a.txt" helloWorld "a.txt" = some helloWorld ∧
    (encryptFile toyCipher (fsOne "a.txt" helloWorld) "a.txt" zeroKey 3 zeroRnd).2 = none ∧
    (decryptFile toyCipher
      (encryptFile toyCipher (fsOne "a.txt" helloWorld) "a.txt" zeroKey 3 zeroRnd).1
      ("a.txt" ++ cryptsec) zeroKey 3).2 = none ∧
    (decryptFile toyCipher
      (encryptFile toyCipher (fsOne "a.txt" helloWorld) "a.txt" zeroKey 3 zeroRnd).1
      ("a.txt" ++ cryptsec) zeroKey 3).1 "a.txt" = some helloWorld ∧
    (decryptFile toyCipher
      (encryptFile toyCipher (fsOne "a.txt" helloWorld) "a.txt" zeroKey 3 zeroRnd).1
      ("a.txt" ++ cryptsec) zeroKey 3).1 ("a.txt" ++ cryptsec) = none :=
  ⟨hasSuffix_a_txt, fsOne_self "a.txt" helloWorld, toy_encrypt_ok helloWorld 3,
    encrypt_decrypt_roundtrip toyCipher (fsOne "a.txt" helloWorld) "a.txt" zeroKey 3 3 zeroRnd
      helloWorld (fun nonce pt => toy_open_seal zeroKey nonce pt)
      hasSuffix_a_txt
      (fsOne_self "a.txt" helloWorld) (toy_encrypt_ok helloWorld 3)⟩

theorem decrypt_truncated_at_chunk_boundary_witness :
    HasSuffix "a.txt" cryptsec = false ∧
    fsOne "a.txt" twoWindowFile "a.txt" = some twoWindowFile ∧
    (encryptFile toyCipher (fsOne "a.txt" twoWindowFile) "a.txt" zeroKey 0 zeroRnd).2 = none ∧
    fsOne ("a.txt" ++ cryptsec) ((randRead zeroRnd gcmNonceSize).1
      ++ ((chunkRecords toyCipher zeroKey (randRead zeroRnd gcmNonceSize).1 twoWindowFile).take
          1).flatten) ("a.txt" ++ cryptsec)
      = some ((randRead zeroRnd gcmNonceSize).1
      ++ ((chunkRecords toyCipher zeroKey (randRead zeroRnd gcmNonceSize).1 twoWindowFile).take
          1).flatten) ∧
    (decryptFile toyCipher (fsOne ("a.txt" ++ cryptsec) ((randRead zeroRnd gcmNonceSize).1
      ++ ((chunkRecords toyCipher zeroKey (randRead zeroRnd gcmNonceSize).1 twoWindowFile).take
          1).flatten)) ("a.txt" ++ cryptsec) zeroKey 0).2 = none ∧
    (decryptFile toyCipher (fsOne ("a.txt" ++ cryptsec) ((randRead zeroRnd gcmNonceSize).1
      ++ ((chunkRecords toyCipher zeroKey (randRead zeroRnd gcmNonceSize).1 twoWindowFile).take
          1).flatten)) ("a.txt" ++ cryptsec) zeroKey 0).1 "a.txt"
      = some (twoWindowFile.take (4096 * 1)) :=
  have h := decrypt_truncated_at_chunk_boundary toyCipher (fsOne "a.txt" twoWindowFile)
    (fsOne ("a.txt" ++ cryptsec) ((randRead zeroRnd gcmNonceSize).1
      ++ ((chunkRecords toyCipher zeroKey (randRead zeroRnd gcmNonceSize).1 twoWindowFile).take
          1).flatten)) "a.txt" zeroKey 0 0 zeroRnd twoWindowFile 1
    (fun nonce pt => toy_open_seal zeroKey nonce pt)
    hasSuffix_a_txt
    (fsOne_self "a.txt" twoWindowFile) (toy_encrypt_ok twoWindowFile 0) (fsOne_self _ _)
  ⟨hasSuffix_a_txt, fsOne_self "a.txt" twoWindowFile, toy_encrypt_ok twoWindowFile 0,
    fsOne_self _ _, h.2.1, h.2.2.1⟩

/-- C2, counterexample to the claim as stated: the empty file.  Its encryption under the
key of 32 zero bytes holds the nonce and no chunk record, and `decryptFile` with the
different key of 32 one bytes succeeds on it (and leaves an empty file at the output). -/
theorem decrypt_wrong_key_empty_counterexample :
    zeroKey ≠ oneKey ∧
    (encryptFile toyCipher (fsOne "a.txt" []) "a.txt" zeroKey 0 zeroRnd).2 = none ∧
    (decryptFile toyCipher (encryptFile toyCipher (fsOne "a.txt" []) "a.txt" zeroKey 0 zeroRnd).1
      ("a.txt" ++ cryptsec) oneKey 0).2 = none ∧
    (decryptFile toyCipher (encryptFile toyCipher (fsOne "a.txt" []) "a.txt" zeroKey 0 zeroRnd).1
      ("a.txt" ++ cryptsec) oneKey 0).1 "a.txt" = some [] := by
  have hE := toy_encrypt_output [] 0
  rw [chunkRecords_nil, ← chunkRecords_nil toyCipher oneKey (randRead zeroRnd gcmNonceSize).1]
    at hE
  have hD := decryptFile_records toyCipher _ "a.txt" oneKey _ 0 []
    (fun pt => toy_open_seal oneKey _ pt)
    validKeySize_oneKey (randRead_length zeroRnd gcmNonceSize) hE
  refine ⟨by decide, toy_encrypt_ok [] 0, ?_, ?_⟩
  · rw [hD]
  · rw [hD]
    simp [(append_cryptsec_ne "a.txt").symm]

/-- C2 (as amended). Wrong key and the first chunk: let `encryptFile` succeed with key
`key` on a plain path holding `F`, and let `decryptFile` run with a key `key2` on
`path ++ ".cryptsec"`.  When `F` is not empty and the cipher under `key2` fails to open the
first chunk record (the seal, under `key` and the nonce of the file, of the first
`min(len(F), 4096)` bytes of `F`), `decryptFile` returns an error: the decryption error, or
the cipher set-up error when `key2` has no valid AES key size.  When `F` is empty, no chunk
is opened and `decryptFile` returns success for every `key2` of a valid AES key size (and
the cipher set-up error otherwise). -/
theorem decrypt_wrong_key_fails (A : AEAD) (fs : FS) (path : String) (key key2 : Bytes)
    (passes passes2 : Int) (rnd : Nat → Byte) (F : Bytes)
    (hsuf : HasSuffix path cryptsec = false) (hF : fs path = some F)
    (henc : (encryptFile A fs path key passes rnd).2 = none) :
    (F ≠ [] →
      A.Open key2 (randRead rnd gcmNonceSize).1
        (A.Seal key (randRead rnd gcmNonceSize).1 (F.take 4096)) = none →
      (decryptFile A (encryptFile A fs path key passes rnd).1 (path ++ cryptsec) key2
        passes2).2
        = some (if validKeySize key2.length then Err.decryptData else Err.aesCipher)) ∧
    (F = [] →
      (decryptFile A (encryptFile A fs path key passes rnd).1 (path ++ cryptsec) key2
        passes2).2
        = (if validKeySize key2.length then none else some Err.aesCipher)) := by
  have hk := encryptFile_success_key A fs path key passes rnd F hsuf hF henc
  have hE : (encryptFile A fs path key passes rnd).1 (path ++ cryptsec)
      = some ((randRead rnd gcmNonceSize).1
          ++ (chunkRecords A key (randRead rnd gcmNonceSize).1 F).flatten) := by
    rw [encryptFile_eq A fs path key passes rnd F hsuf hF hk]
    simp [append_cryptsec_ne]
  refine ⟨?_, ?_⟩
  · intro hne hwrong
    by_cases hk2 : validKeySize key2.length = true
    · rw [decryptFile_wrong_key_eq A _ path key key2 _ passes2 F hwrong hk2
        (randRead_length rnd gcmNonceSize) hne hE]
      simp [hk2]
    · simp [decryptFile, hasSuffix_append, hE, hk2]
  · intro hnil
    rw [hnil, chunkRecords_nil, List.flatten_nil, List.append_nil] at hE
    by_cases hk2 : validKeySize key2.length = true
    · rw [decryptFile_nonce_only A _ path key2 _ passes2 hk2
        (randRead_length rnd gcmNonceSize) hE]
      simp [hk2]
    · simp [decryptFile, hasSuffix_append, hE, hk2]

theorem decrypt_wrong_key_fails_witness :
    HasSuffix "a.txt" cryptsec = false ∧
    fsOne "a.txt" helloWorld "a.txt" = some helloWorld ∧
    (encryptFile toyCipher (fsOne "a.txt" helloWorld) "a.txt" zeroKey 3 zeroRnd).2 = none ∧
    helloWorld ≠ [] ∧
    toyCipher.Open oneKey (randRead zeroRnd gcmNonceSize).1
      (toyCipher.Seal zeroKey (randRead zeroRnd gcmNonceSize).1 (helloWorld.take 4096))
      = none ∧
    (decryptFile toyCipher
      (encryptFile toyCipher (fsOne "a.txt" helloWorld) "a.txt" zeroKey 3 zeroRnd).1
      ("a.txt" ++ cryptsec) oneKey 3).2
      = some (if validKeySize oneKey.length then Err.decryptData else Err.aesCipher) :=
  ⟨hasSuffix_a_txt, fsOne_self "a.txt" helloWorld, toy_encrypt_ok helloWorld 3, by decide,
    toy_wrong_key _ _,
    (decrypt_wrong_key_fails toyCipher (fsOne "a.txt" helloWorld) "a.txt" zeroKey oneKey 3 3
      zeroRnd helloWorld hasSuffix_a_txt (fsOne_self "a.txt" helloWorld)
      (toy_encrypt_ok helloWorld 3)).1 (by decide) (toy_wrong_key _ _)⟩

/-- C3, counterexample to the claim as stated: `a.txt` holding `hello world` is encrypted
under the key of 32 zero bytes (after which `a.txt` does not exist), then `decryptFile`
runs with the key of 32 one bytes: it returns the decryption error for the first chunk,
yet `a.txt` now exists (empty), so the file system is not as it was before the call. -/
theorem decrypt_failure_creates_output_counterexample :
    (encryptFile toyCipher (fsOne "a.txt" helloWorld) "a.txt" zeroKey 0 zeroRnd).1 "a.txt"
      = none ∧
    (decryptFile toyCipher
      (encryptFile toyCipher (fsOne "a.txt" helloWorld) "a.txt" zeroKey 0 zeroRnd).1
      ("a.txt" ++ cryptsec) oneKey 0).2 = some Err.decryptData ∧
    (decryptFile toyCipher
      (encryptFile toyCipher (fsOne "a.txt" helloWorld) "a.txt" zeroKey 0 zeroRnd).1
      ("a.txt" ++ cryptsec) oneKey 0).1 "a.txt" = some [] := by
  refine ⟨toy_encrypt_input_gone helloWorld 0, ?_, ?_⟩
  · rw [toy_decrypt_wrong_key helloWorld (by decide) 0 0]
  · rw [toy_decrypt_wrong_key helloWorld (by decide) 0 0]
    simp [createFile]

/-- C3 (as amended). Effect of a failed decryption: whenever `decryptFile` returns the
decryption error (a chunk failed to authenticate), the `.cryptsec` input is still present
with unchanged content and every path other than the suffix-stripped output path is
unchanged; the output path differs from the input, has been created (or truncated) and
holds the plaintext of the chunks that opened before the failing one. -/
theorem decryptFile_failure_effect (A : AEAD) (fs : FS) (path : String) (key : Bytes)
    (passes : Int) (h : (decryptFile A fs path key passes).2 = some Err.decryptData) :
    ∃ content, fs path = some content ∧
      (decryptFile A fs path key passes).1 path = some content ∧
      TrimSuffix path cryptsec ≠ path ∧
      (∀ q, q ≠ TrimSuffix path cryptsec → (decryptFile A fs path key passes).1 q = fs q) ∧
      (decryptFile A fs path key passes).1 (TrimSuffix path cryptsec)
        = some (openedPrefix A key (content.take gcmNonceSize) (content.drop gcmNonceSize)) := by
  by_cases hs : HasSuffix path cryptsec = true
  swap
  · simp [decryptFile, hs] at h
  cases hc : fs path with
  | none => simp [decryptFile, hs, hc] at h
  | some content =>
    by_cases hk : validKeySize key.length = true
    swap
    · simp [decryptFile, hs, hc, hk] at h
    by_cases hl : content.length < gcmNonceSize
    · simp [decryptFile, hs, hc, hk, hl] at h
    have hne : TrimSuffix path cryptsec ≠ path := trimSuffix_cryptsec_ne path hs
    have hfs := decryptLoop_fs A key (content.take gcmNonceSize) (TrimSuffix path cryptsec)
      (content.drop gcmNonceSize) (createFile fs (TrimSuffix path cryptsec)) []
      (by simp [createFile])
    simp only [decryptFile, hs, hc, hk, hl, if_true, if_false] at h ⊢
    generalize decryptLoop A key (content.take gcmNonceSize) (TrimSuffix path cryptsec)
      (content.drop gcmNonceSize) (createFile fs (TrimSuffix path cryptsec)) = r at h hfs ⊢
    obtain ⟨fs2, e⟩ := r
    cases e with
    | none =>
      exfalso
      dsimp only at h
      cases hr : removeFile fs2 path with
      | none => simp [hr] at h
      | some fs3 => simp [hr] at h
    | some e =>
      dsimp only at hfs ⊢
      subst hfs
      refine ⟨content, rfl, ?_, hne, ?_, ?_⟩
      · simp [hne.symm, createFile, hc]
      · intro q hq; simp [hq, createFile]
      · simp

theorem decryptFile_failure_effect_witness :
    (decryptFile toyCipher
      (fsOne ("a.txt" ++ cryptsec) ((randRead zeroRnd gcmNonceSize).1
        ++ (chunkRecords toyCipher zeroKey (randRead zeroRnd gcmNonceSize).1
            helloWorld).flatten))
      ("a.txt" ++ cryptsec) oneKey 0).2 = some Err.decryptData ∧
    ∃ content,
      fsOne ("a.txt" ++ cryptsec) ((randRead zeroRnd gcmNonceSize).1
        ++ (chunkRecords toyCipher zeroKey (randRead zeroRnd gcmNonceSize).1
            helloWorld).flatten) ("a.txt" ++ cryptsec) = some content ∧
      (decryptFile toyCipher
        (fsOne ("a.txt" ++ cryptsec) ((randRead zeroRnd gcmNonceSize).1
          ++ (chunkRecords toyCipher zeroKey (randRead zeroRnd gcmNonceSize).1
              helloWorld).flatten))
        ("a.txt" ++ cryptsec) oneKey 0).1 ("a.txt" ++ cryptsec) = some content ∧
      TrimSuffix ("a.txt" ++ cryptsec) cryptsec ≠ "a.txt" ++ cryptsec ∧
      (∀ q, q ≠ TrimSuffix ("a.txt" ++ cryptsec) cryptsec →
        (decryptFile toyCipher
          (fsOne ("a.txt" ++ cryptsec) ((randRead zeroRnd gcmNonceSize).1
            ++ (chunkRecords toyCipher zeroKey (randRead zeroRnd gcmNonceSize).1
                helloWorld).flatten))
          ("a.txt" ++ cryptsec) oneKey 0).1 q
        = fsOne ("a.txt" ++ cryptsec) ((randRead zeroRnd gcmNonceSize).1
            ++ (chunkRecords toyCipher zeroKey (randRead zeroRnd gcmNonceSize).1
                helloWorld).flatten) q) ∧
      (decryptFile toyCipher
        (fsOne ("a.txt" ++ cryptsec) ((randRead zeroRnd gcmNonceSize).1
          ++ (chunkRecords toyCipher zeroKey (randRead zeroRnd gcmNonceSize).1
              helloWorld).flatten))
        ("a.txt" ++ cryptsec) oneKey 0).1 (TrimSuffix ("a.txt" ++ cryptsec) cryptsec)
        = some (openedPrefix toyCipher oneKey (content.take gcmNonceSize)
            (content.drop gcmNonceSize)) :=
  have hfail : (decryptFile toyCipher
      (fsOne ("a.txt" ++ cryptsec) ((randRead zeroRnd gcmNonceSize).1
        ++ (chunkRecords toyCipher zeroKey (randRead zeroRnd gcmNonceSize).1
            helloWorld).flatten))
      ("a.txt" ++ cryptsec) oneKey 0).2 = some Err.decryptData := by
    rw [decryptFile_wrong_key_eq toyCipher _ "a.txt" zeroKey oneKey _ 0 helloWorld
      (toy_wrong_key _ _)
      validKeySize_oneKey (randRead_length zeroRnd gcmNonceSize) (by decide) (fsOne_self _ _)]
  ⟨hfail, decryptFile_failure_effect toyCipher _ ("a.txt" ++ cryptsec) oneKey 0 hfail⟩

/-! ## Directory worker pool: theorems -/

/-- Without `useMultithread` no worker exists and no transform is ever invoked. -/
theorem poolStep_sequential (c : PoolConfig) (hc : c.useMultithread = false)
    (s s1 : PoolState) (a : PoolAction) (hs : s.workers = 0 ∧ s.calls = [])
    (h : poolStep c s a = some s1) : s1.workers = 0 ∧ s1.calls = [] := by
  obtain ⟨hw, hcalls⟩ := hs
  cases a <;> simp only [poolStep] at h
  · split at h
    · simp at h
    · split at h
      · cases h; exact ⟨hw, hcalls⟩
      · simp at h
  · split at h
    · simp at h
    · simp [hw] at h
  · split at h
    · simp at h
    · simp [hw] at h
  · simp [hc] at h
  · simp [hw] at h
  · split at h
    · cases h; exact ⟨hw, hcalls⟩
    · simp at h

theorem poolRun_sequential (c : PoolConfig) (hc : c.useMultithread = false)
    (schedule : List PoolAction) :
    ∀ s s1 : PoolState, s.workers = 0 ∧ s.calls = [] → poolRun c schedule s = some s1 →
      s1.workers = 0 ∧ s1.calls = [] := by
  induction schedule with
  | nil => intro s s1 hs h; simp only [poolRun, Option.some.injEq] at h; subst h; exact hs
  | cons a rest ih =>
    intro s s1 hs h
    simp only [poolRun] at h
    cases hstep : poolStep c s a with
    | none => simp [hstep] at h
    | some s2 =>
      simp only [hstep] at h
      exact ih s2 s1 (poolStep_sequential c hc s s2 a hs hstep) h

/-- Without `useMultithread`, whatever the tree, the thread count and the schedule,
`processDirectory` invokes no transform at all. -/
theorem processDirectory_sequential_no_calls (c : PoolConfig) (hc : c.useMultithread = false)
    (schedule : List PoolAction) (s : PoolState) (h : processDirectory c schedule = some s) :
    s.calls = [] := by
  simp only [processDirectory] at h
  cases hi : poolInit c with
  | none => simp [hi] at h
  | some s0 =>
    simp only [hi] at h
    have h0 : s0.workers = 0 ∧ s0.calls = [] := by
      simp only [poolInit] at hi
      split at hi
      · simp at hi
      · cases hi; simp [poolWorkers, hc]
    exact (poolRun_sequential c hc schedule s0 s h0 h).2

/-- C9, the code at the failing input.  For one regular file and `threads = 1` (so
`useMultithread = false`) the run consists of the send of the path into the channel buffer
followed by the return: `processDirectory` returns with the path still in the channel and
zero transform invocations, where the tree has one regular file.  For `threads = 0` the
channel is unbuffered and no action at all is enabled in the initial state: the send blocks
forever. -/
theorem processDirectory_sequential_skips_files :
    processDirectory oneFileSequential [PoolAction.send, PoolAction.ret]
      = some { pending := [], chan := ["a.txt"], closed := false, workers := 0, calls := [],
               returned := true } ∧
    oneFileSequential.files.length = 1 ∧
    processDirectory oneFileNoThreads []
      = some { pending := ["a.txt"], chan := [], closed := false, workers := 0, calls := [],
               returned := false } ∧
    processDirectory oneFileNoThreads [PoolAction.send] = none ∧
    processDirectory oneFileNoThreads [PoolAction.handoff] = none ∧
    processDirectory oneFileNoThreads [PoolAction.receive] = none ∧
    processDirectory oneFileNoThreads [PoolAction.close] = none ∧
    processDirectory oneFileNoThreads [PoolAction.workerExit] = none ∧
    processDirectory oneFileNoThreads [PoolAction.ret] = none := by
  decide

/-! ### The multithreaded runs -/

theorem poolTransform_of_flag (c : PoolConfig) (hT : (c.encrypt || c.decrypt) = true)
    (f : String) : poolTransform c f = [f] := by
  unfold poolTransform
  cases he : c.encrypt <;> cases hd : c.decrypt <;> simp_all

theorem poolInit_inv (c : PoolConfig) (s : PoolState) (h : poolInit c = some s) :
    PoolInv c s := by
  simp only [poolInit] at h
  split at h
  · simp at h
  · cases h
    simp [PoolInv]

theorem poolStep_inv (c : PoolConfig) (hm : c.useMultithread = true)
    (hT : (c.encrypt || c.decrypt) = true) (s s1 : PoolState) (a : PoolAction)
    (hs : PoolInv c s) (h : poolStep c s a = some s1) : PoolInv c s1 := by
  obtain ⟨h1, h2, h3, h4, h5, h6⟩ := hs
  cases a <;> simp only [poolStep] at h
  · -- send
    split at h
    · simp at h
    · rename_i f rest hp
      split at h
      · rename_i hg
        cases h
        have hcl : s.closed = false := by
          cases hc : s.closed
          · rfl
          · have := h5 hc; simp [hp] at this
        refine ⟨?_, ?_, h3, ?_, ?_, ?_⟩
        · simpa [hp] using h1
        · simp only [List.length_append, List.length_singleton]; omega
        · intro hw; have := (h4 hw).1; simp [hcl] at this
        · intro hc; simp [hcl] at hc
        · intro hr; simp [hg.2] at hr
      · simp at h
  · -- handoff
    split at h
    · simp at h
    · rename_i f rest hp
      split at h
      · rename_i hg
        cases h
        have hcl : s.closed = false := by
          cases hc : s.closed
          · rfl
          · have := h5 hc; simp [hp] at this
        refine ⟨?_, h2, h3, ?_, ?_, ?_⟩
        · simpa [hp, hg.1, poolTransform_of_flag c hT] using h1
        · intro hw; have := (h4 hw).1; simp [hcl] at this
        · intro hc; simp [hcl] at hc
        · intro hr; simp [hg.2.2] at hr
      · simp at h
  · -- receive
    split at h
    · simp at h
    · rename_i f rest hp
      split at h
      · rename_i hg
        cases h
        have hw0 : ¬ s.workers < poolWorkers c := by
          intro hw; have := (h4 hw).2; simp [hp] at this
        refine ⟨?_, ?_, h3, ?_, h5, ?_⟩
        · simpa [hp, poolTransform_of_flag c hT] using h1
        · show rest.length ≤ poolCapacity c
          simp only [hp, List.length_cons] at h2; omega
        · intro hw; exact absurd hw hw0
        · intro hr; have := (h6 hr).2.2; omega
      · simp at h
  · -- close
    split at h
    · rename_i hg
      cases h
      refine ⟨h1, h2, h3, ?_, ?_, ?_⟩
      · intro hw; have := (h4 hw).1; simp [hg.2.2] at this
      · intro _; exact hg.1
      · intro hr; have := (h6 hr).2.1; simp [hg.2.2] at this
    · simp at h
  · -- workerExit
    split at h
    · rename_i hg
      cases h
      refine ⟨h1, h2, ?_, ?_, h5, ?_⟩
      · show s.workers - 1 ≤ poolWorkers c
        omega
      · intro _; exact ⟨hg.1, hg.2.1⟩
      · intro hr; have := (h6 hr).2.2; omega
    · simp at h
  · -- ret
    split at h
    · rename_i hg
      cases h
      refine ⟨h1, h2, h3, h4, h5, ?_⟩
      intro _
      exact ⟨hg.1, (hg.2.2 hm).1, (hg.2.2 hm).2⟩
    · simp at h

theorem poolStep_measure (c : PoolConfig) (s s1 : PoolState) (a : PoolAction)
    (h : poolStep c s a = some s1) : poolMeasure s1 < poolMeasure s := by
  cases a <;> simp only [poolStep] at h
  · split at h
    · simp at h
    · rename_i f rest hp
      split at h
      · cases h; simp [poolMeasure, hp]; omega
      · simp at h
  · split at h
    · simp at h
    · rename_i f rest hp
      split at h
      · cases h; simp [poolMeasure, hp]
      · simp at h
  · split at h
    · simp at h
    · rename_i f rest hp
      split at h
      · cases h; simp [poolMeasure, hp]
      · simp at h
  · split at h
    · rename_i hg
      cases h; simp [poolMeasure, hg.2.2]
    · simp at h
  · split at h
    · rename_i hg
      cases h; simp [poolMeasure]; omega
    · simp at h
  · split at h
    · rename_i hg
      cases h; simp [poolMeasure, hg.2.1]
    · simp at h

theorem poolRun_inv (c : PoolConfig) (hm : c.useMultithread = true)
    (hT : (c.encrypt || c.decrypt) = true) (schedule : List PoolAction) :
    ∀ s s1 : PoolState, PoolInv c s → poolRun c schedule s = some s1 →
      PoolInv c s1 ∧ schedule.length + poolMeasure s1 ≤ poolMeasure s := by
  induction schedule with
  | nil =>
    intro s s1 hs h
    simp only [poolRun, Option.some.injEq] at h
    subst h
    exact ⟨hs, by simp⟩
  | cons a rest ih =>
    intro s s1 hs h
    simp only [poolRun] at h
    cases hstep : poolStep c s a with
    | none => simp [hstep] at h
    | some s2 =>
      simp only [hstep] at h
      have := ih s2 s1 (poolStep_inv c hm hT s s2 a hs hstep) h
      have hlt := poolStep_measure c s s2 a hstep
      refine ⟨this.1, ?_⟩
      simp only [List.length_cons]
      omega

/-- A state that satisfies the invariant and has not returned can take a step, as soon as at
least one thread was requested. -/
theorem poolStep_progress (c : PoolConfig) (ht : 1 ≤ c.threads) (hm : c.useMultithread = true)
    (s : PoolState) (hs : PoolInv c s) (hr : s.returned = false) :
    ∃ a s1, poolStep c s a = some s1 := by
  obtain ⟨h1, h2, h3, h4, h5, h6⟩ := hs
  have hpw : c.files ≠ [] → 0 < poolWorkers c := by
    intro hne
    have hpos : 0 < c.files.length := List.length_pos.mpr hne
    simp only [poolWorkers, hm, if_true]
    split <;> omega
  have hsome : ∀ a, (poolStep c s a).isSome = true → ∃ a s1, poolStep c s a = some s1 := by
    intro a ha
    obtain ⟨s1, hs1⟩ := Option.isSome_iff_exists.mp ha
    exact ⟨a, s1, hs1⟩
  cases hp : s.pending with
  | cons f rest =>
    have hne : c.files ≠ [] := by
      intro h0; rw [h0, hp] at h1; simp at h1
    have hcl : s.closed = false := by
      cases hc : s.closed
      · rfl
      · have := h5 hc; simp [hp] at this
    have hw : 0 < s.workers := by
      by_contra hw0
      have : s.workers < poolWorkers c := by have := hpw hne; omega
      have := (h4 this).1
      simp [hcl] at this
    cases hch : s.chan with
    | nil => exact hsome PoolAction.handoff (by simp [poolStep, hp, hch, hw, hr])
    | cons g more => exact hsome PoolAction.receive (by simp [poolStep, hch, hw])
  | nil =>
    cases hc : s.closed with
    | false => exact hsome PoolAction.close (by simp [poolStep, hp, hm, hc])
    | true =>
      cases hch : s.chan with
      | cons g more =>
        have hne : c.files ≠ [] := by
          intro h0; rw [h0, hch] at h1; simp at h1
        have hw : 0 < s.workers := by
          by_contra hw0
          have : s.workers < poolWorkers c := by have := hpw hne; omega
          have := (h4 this).2
          simp [hch] at this
        exact hsome PoolAction.receive (by simp [poolStep, hch, hw])
      | nil =>
        by_cases hw : 0 < s.workers
        · exact hsome PoolAction.workerExit (by simp [poolStep, hc, hch, hw])
        · have hw0 : s.workers = 0 := by omega
          exact hsome PoolAction.ret (by simp [poolStep, hp, hr, hc, hw0])

theorem poolRun_append (c : PoolConfig) (a : PoolAction) (schedule : List PoolAction) :
    ∀ s s1 : PoolState, poolRun c schedule s = some s1 →
      poolRun c (schedule ++ [a]) s = poolStep c s1 a := by
  induction schedule with
  | nil =>
    intro s s1 h
    simp only [poolRun, Option.some.injEq] at h
    subst h
    simp only [List.nil_append, poolRun]
    cases poolStep c s a <;> rfl
  | cons b rest ih =>
    intro s s1 h
    simp only [poolRun, List.cons_append] at h ⊢
    cases hstep : poolStep c s b with
    | none => simp [hstep] at h
    | some s2 =>
      simp only [hstep] at h ⊢
      exact ih s2 s1 h

/-- With `useMultithread`, at least one thread and a transform selected, the runs of
`processDirectory` are complete: a run that has returned has invoked the transform on the
enumerated paths, once each and in order; a run that has not returned can always take a
further step; no run has more than `3 * N + workers + 2` actions; at most `N` workers are
started. -/
theorem processDirectory_multithread_complete (c : PoolConfig)
    (hm : c.useMultithread = true) (hT : (c.encrypt || c.decrypt) = true)
    (ht : 1 ≤ c.threads) (schedule : List PoolAction) (s : PoolState)
    (h : processDirectory c schedule = some s) :
    (s.returned = true → s.calls = c.files) ∧
    (s.returned = false → ∃ a s1, processDirectory c (schedule ++ [a]) = some s1) ∧
    schedule.length ≤ 3 * c.files.length + poolWorkers c + 2 ∧
    poolWorkers c ≤ c.files.length := by
  have hpw : poolWorkers c ≤ c.files.length ∧ (c.files ≠ [] → 0 < poolWorkers c) := by
    simp only [poolWorkers, hm, if_true]
    refine ⟨by split <;> omega, ?_⟩
    intro hne
    have hpos : 0 < c.files.length := List.length_pos.mpr hne
    split <;> omega
  simp only [processDirectory] at h ⊢
  cases hi : poolInit c with
  | none => simp [hi] at h
  | some s0 =>
    simp only [hi] at h ⊢
    have hinv0 := poolInit_inv c s0 hi
    have hm0 : poolMeasure s0 = 3 * c.files.length + poolWorkers c + 2 := by
      simp only [poolInit] at hi
      split at hi
      · simp at hi
      · cases hi; simp [poolMeasure]
    obtain ⟨hinv, hlen⟩ := poolRun_inv c hm hT schedule s0 s hinv0 h
    refine ⟨?_, ?_, by omega, hpw.1⟩
    · intro hr
      obtain ⟨h1, _, _, h4, _, h6⟩ := hinv
      obtain ⟨hp, _, hw⟩ := h6 hr
      by_cases hne : c.files = []
      · rw [hne] at h1 ⊢
        simp only [List.append_eq_nil] at h1
        exact h1.1.1
      · have hch := (h4 (by have := hpw.2 hne; omega)).2
        rw [hp, hch] at h1
        simpa using h1
    · intro hr
      obtain ⟨a, s1, hs1⟩ := poolStep_progress c ht hm s hinv hr
      exact ⟨a, s1, by rw [poolRun_append c a schedule s0 s h, hs1]⟩

end Lockit
